import Mathlib

/-!
Verification of the normalization and type-inference pipeline of
src/server/pdf-extractor.ts: the row cleaner (cleanValue, lines 239-258)
and the table normalizer (convertJsonToParsedData, lines 264-398).
The TypeScript is shallowly embedded: JavaScript values become the
inductive JVal, JavaScript objects become insertion-ordered association
lists, thrown TypeErrors become Option.none, and the host date parser
(whose behaviour ECMAScript leaves implementation-defined) is passed in
as a Bool-valued function.
-/

namespace PdfExtractor

/-! ## Character classes (ECMAScript WhiteSpace, LineTerminator, word chars) -/

/-- The code points matched by the ECMAScript regex class backslash-s and
removed by String.prototype.trim: WhiteSpace and LineTerminator. -/
def isJsWs (c : Char) : Bool :=
  decide (c.toNat = 0x9 ∨ c.toNat = 0xa ∨ c.toNat = 0xb ∨ c.toNat = 0xc ∨
    c.toNat = 0xd ∨ c.toNat = 0x20 ∨ c.toNat = 0xa0 ∨ c.toNat = 0x1680 ∨
    (0x2000 ≤ c.toNat ∧ c.toNat ≤ 0x200a) ∨ c.toNat = 0x2028 ∨
    c.toNat = 0x2029 ∨ c.toNat = 0x202f ∨ c.toNat = 0x205f ∨
    c.toNat = 0x3000 ∨ c.toNat = 0xfeff)

/-- An ECMAScript LineTerminator, the code points the regex dot does not match. -/
def isLineTerm (c : Char) : Bool :=
  decide (c.toNat = 0xa ∨ c.toNat = 0xd ∨ c.toNat = 0x2028 ∨ c.toNat = 0x2029)

/-- A character kept by the sanitizer's final filter, the class a-zA-Z0-9_. -/
def isWordChar (c : Char) : Bool :=
  decide ((0x30 ≤ c.toNat ∧ c.toNat ≤ 0x39) ∨ (0x41 ≤ c.toNat ∧ c.toNat ≤ 0x5a) ∨
    (0x61 ≤ c.toNat ∧ c.toNat ≤ 0x7a) ∨ c.toNat = 0x5f)

/-- A character stripped from the ends of a column name by the regex
class containing hash, dash and backslash-s (pdf-extractor.ts line 288). -/
def isStripChar (c : Char) : Bool :=
  c == '#' || c == '-' || isJsWs c

/-- A decimal digit 0-9. -/
def isDigitCh (c : Char) : Bool :=
  decide (0x30 ≤ c.toNat ∧ c.toNat ≤ 0x39)

/-- String.prototype.trim on a character list: drop WhiteSpace and
LineTerminator from both ends. -/
def jsTrim (cs : List Char) : List Char :=
  ((cs.dropWhile isJsWs).reverse.dropWhile isJsWs).reverse

/-- The replacement of each maximal run of backslash-s by one underscore,
as the regex replace at pdf-extractor.ts line 289 performs. The Bool
records whether the previous character was part of a run already replaced. -/
def collapseWsAux : Bool → List Char → List Char
  | _, [] => []
  | prevWs, c :: rest =>
    if isJsWs c then
      if prevWs then collapseWsAux true rest else '_' :: collapseWsAux true rest
    else c :: collapseWsAux false rest

def collapseWs (cs : List Char) : List Char := collapseWsAux false cs

/-! ## Decimal rendering of natural numbers (JS template literals, array keys) -/

/-- Digit character of n mod 10. -/
def digitCh (n : Nat) : Char := Char.ofNat (0x30 + n % 10)

/-- Decimal digits of a positive number, most significant first; the first
argument is fuel, always at least the number itself at the call sites. -/
def natDecAux : Nat → Nat → List Char
  | 0, _ => []
  | _, 0 => []
  | fuel + 1, n + 1 => natDecAux fuel ((n + 1) / 10) ++ [digitCh (n + 1)]

/-- The decimal rendering of a natural number, as a JS template literal
interpolates it. -/
def natDecChars (n : Nat) : List Char :=
  if n = 0 then ['0'] else natDecAux n n

def natDec (n : Nat) : String := String.mk (natDecChars n)

/-! ## JavaScript values -/

/-- A JSON value as the extraction step hands it to the normalizer: null,
boolean, number, string, array or object. Numeric literals are modelled as
integers; non-integral JSON numbers do not occur in the behaviours studied
here, which only involve string-valued and null cells. -/
inductive JVal where
  | vnull : JVal
  | vbool : Bool → JVal
  | vnum : Int → JVal
  | vstr : String → JVal
  | varr : List JVal → JVal
  | vobj : List (String × JVal) → JVal
deriving Repr

/-- Decimal rendering of an integer, as String(n) renders a JS integer. -/
def intDec (i : Int) : String :=
  if i < 0 then String.mk ('-' :: natDecChars i.natAbs) else natDec i.natAbs

/-- Whether a value is the JSON null. -/
def JVal.isNull : JVal → Bool
  | .vnull => true
  | _ => false

mutual

/-- The ECMAScript ToString coercion String(v). Arrays stringify by
joining their elements with commas (Array.prototype.toString), objects
render as the usual object tag. -/
def jsToString : JVal → String
  | .vnull => "null"
  | .vbool true => "true"
  | .vbool false => "false"
  | .vnum i => intDec i
  | .vstr s => s
  | .vobj _ => "[object Object]"
  | .varr xs => String.intercalate "," (jsToStringList xs)

/-- The element renderings of Array.prototype.toString: a null element
joins as the empty string, any other element as its ToString. -/
def jsToStringList : List JVal → List String
  | [] => []
  | x :: rest => (if x.isNull then "" else jsToString x) :: jsToStringList rest

end

/-! ## The ECMAScript ToNumber coercion on strings, Number(s) -/

/-- A JavaScript number as far as this pipeline observes it: NaN, the two
infinities, or a finite value m * 10 ^ k held exactly (the pipeline never
adds or compares numbers, so double rounding is not modelled). Finite
values are only built through mkFin, which keeps the representation
canonical: the mantissa carries no factor of ten, and zero is (0, 0). -/
inductive JSNum where
  | nan : JSNum
  | inf : JSNum
  | ninf : JSNum
  | fin : Int → Int → JSNum
deriving DecidableEq, Repr

/-- Strip factors of ten from the mantissa into the exponent; the first
argument is fuel, at least the mantissa at the call site. -/
def strip10 : Nat → Nat → Int → Nat × Int
  | 0, m, k => (m, k)
  | fuel + 1, m, k =>
    if m % 10 = 0 ∧ m ≠ 0 then strip10 fuel (m / 10) (k + 1) else (m, k)

/-- The canonical finite JS number m * 10 ^ k. -/
def mkFin (m : Int) (k : Int) : JSNum :=
  if m = 0 then .fin 0 0
  else
    let p := strip10 m.natAbs m.natAbs k
    if m < 0 then .fin (-(p.1 : Int)) p.2 else .fin p.1 p.2

def jsIsNaN : JSNum → Bool
  | .nan => true
  | _ => false

def digitVal (c : Char) : Nat := c.toNat - 0x30

def digitsVal (ds : List Char) : Nat :=
  ds.foldl (fun a c => 10 * a + digitVal c) 0

/-- The digit value of a character in the given base (16, 8 or 2), if any. -/
def radixDigitVal (base : Nat) (c : Char) : Option Nat :=
  let n := c.toNat
  if 0x30 ≤ n ∧ n ≤ 0x39 ∧ n - 0x30 < base then some (n - 0x30)
  else if base = 16 ∧ 0x61 ≤ n ∧ n ≤ 0x66 then some (n - 0x61 + 10)
  else if base = 16 ∧ 0x41 ≤ n ∧ n ≤ 0x46 then some (n - 0x41 + 10)
  else none

def radixVal (base : Nat) (ds : List Char) : Option Nat :=
  ds.foldl (fun acc c => match acc, radixDigitVal base c with
    | some a, some d => some (base * a + d)
    | _, _ => none) (some 0)

/-- The ExponentPart of a StrDecimalLiteral: empty means exponent 0, and
otherwise the letter e or E, an optional sign and at least one digit,
consuming the whole remainder. None when the remainder is anything else. -/
def parseExpPart : List Char → Option Int
  | [] => some 0
  | e :: rest =>
    if e == 'e' || e == 'E' then
      match rest with
      | '+' :: ds => if ds ≠ [] ∧ ds.all isDigitCh then some (digitsVal ds) else none
      | '-' :: ds => if ds ≠ [] ∧ ds.all isDigitCh then some (-(digitsVal ds : Int)) else none
      | ds => if ds ≠ [] ∧ ds.all isDigitCh then some (digitsVal ds) else none
    else none

/-- The value of integer digits, fraction digits and a decimal exponent:
the digits become the mantissa and the fraction length shifts the
exponent down. -/
def decValue (intDs fracDs : List Char) (e : Int) : JSNum :=
  mkFin (digitsVal intDs * 10 ^ fracDs.length + digitsVal fracDs)
    (e - fracDs.length)

/-- An unsigned StrDecimalLiteral: the literal Infinity, or decimal digits
with an optional fraction and exponent, or a fraction with an exponent;
the whole list must be consumed. -/
def parseUnsignedDec (cs : List Char) : Option JSNum :=
  if cs = "Infinity".toList then some .inf
  else
    let intDs := cs.takeWhile isDigitCh
    let rest := cs.dropWhile isDigitCh
    match rest with
    | '.' :: rest2 =>
      let fracDs := rest2.takeWhile isDigitCh
      let rest3 := rest2.dropWhile isDigitCh
      if intDs = [] ∧ fracDs = [] then none
      else (parseExpPart rest3).map (decValue intDs fracDs)
    | _ =>
      if intDs = [] then none
      else (parseExpPart rest).map (decValue intDs [])

def negJSNum : JSNum → JSNum
  | .nan => .nan
  | .inf => .ninf
  | .ninf => .inf
  | .fin m k => .fin (-m) k

/-- A NonDecimalIntegerLiteral body (after the 0x, 0o or 0b prefix): at
least one digit of the base, consuming everything. -/
def parseRadix (base : Nat) (ds : List Char) : JSNum :=
  if ds = [] then .nan
  else match radixVal base ds with
    | some v => mkFin v 0
    | none => .nan

/-- A StrNumericLiteral: an optionally signed decimal literal, or an
unsigned hex, octal or binary literal. The empty string is 0. -/
def parseStrNumeric : List Char → JSNum
  | [] => .fin 0 0
  | '+' :: rest =>
    (match parseUnsignedDec rest with
     | some x => x
     | none => .nan)
  | '-' :: rest =>
    (match parseUnsignedDec rest with
     | some x => negJSNum x
     | none => .nan)
  | '0' :: x :: rest =>
    if x == 'x' || x == 'X' then parseRadix 16 rest
    else if x == 'o' || x == 'O' then parseRadix 8 rest
    else if x == 'b' || x == 'B' then parseRadix 2 rest
    else
      (match parseUnsignedDec ('0' :: x :: rest) with
       | some v => v
       | none => .nan)
  | cs =>
    (match parseUnsignedDec cs with
     | some v => v
     | none => .nan)

/-- Number(s) on a string: trim the ECMAScript StrWhiteSpace, then parse a
StrNumericLiteral; anything else is NaN. -/
def jsNumber (s : String) : JSNum := parseStrNumeric (jsTrim s.toList)

/-! ## The row cleaner, cleanValue (pdf-extractor.ts lines 239-258) -/

/-- Lower-case an ASCII letter; other characters unchanged. Case folding
of the case-insensitive regex at line 250, which canonicalizes only ASCII
here (the pattern letters are ASCII and non-ASCII inputs never
case-insensitively match an ASCII pattern character without the u flag). -/
def lowerAscii (c : Char) : Char :=
  if 0x41 ≤ c.toNat ∧ c.toNat ≤ 0x5a then Char.ofNat (c.toNat + 0x20) else c

/-- Whether the list starts with a match of the regex (Approx.) under the
i flag: the parentheses group, so the pattern is the six letters Approx
case-insensitively followed by one character the dot matches (any
character except a LineTerminator). On a match, the remainder after the
matched seven characters. -/
def tryApprox : List Char → Option (List Char)
  | c1 :: c2 :: c3 :: c4 :: c5 :: c6 :: c7 :: rest =>
    if lowerAscii c1 == 'a' && lowerAscii c2 == 'p' && lowerAscii c3 == 'p' &&
       lowerAscii c4 == 'r' && lowerAscii c5 == 'o' && lowerAscii c6 == 'x' &&
       !(isLineTerm c7) then
      some rest
    else none
  | _ => none

/-- strVal.replace of the regex (Approx.) with the i flag and no g flag:
delete the leftmost match, if any; the rest of the string is unchanged. -/
def replaceFirstApprox : List Char → List Char
  | [] => []
  | c :: rest =>
    match tryApprox (c :: rest) with
    | some rem => rem
    | none => c :: replaceFirstApprox rest

/-- The string pipeline of cleanValue on a non-null value (lines 244-250):
coerce to text, trim, delete every comma, delete the first match of the
(Approx.) regex, trim again. -/
def cleanCore (v : JVal) : String :=
  String.mk (jsTrim (replaceFirstApprox ((jsTrim (jsToString v).toList).filter (· != ','))))

/-- cleanValue (lines 239-258). The argument is the looked-up cell:
none models the JavaScript undefined of a missing key, JVal.vnull the
JSON null; both return null. Otherwise the cleaned string is returned
unless it equals one of the sentinel literals or is empty. -/
def cleanValue (v : Option JVal) : Option String :=
  match v with
  | none => none
  | some .vnull => none
  | some w =>
    let s := cleanCore w
    if s = "---" ∨ s = "-" ∨ s = "NIL" ∨ s = "NA" ∨ s = "" then none
    else some s

/-! ## Column-name sanitization (pdf-extractor.ts lines 286-292) -/

/-- The regex replace that deletes a leading and a trailing run of hash,
dash and whitespace characters (line 288). -/
def stripEnds (cs : List Char) : List Char :=
  ((cs.dropWhile isStripChar).reverse.dropWhile isStripChar).reverse

/-- The chained replaces of line 287-290 on one key: trim, strip the end
runs, collapse whitespace runs to underscores, delete every character
outside a-zA-Z0-9_. The String(col or-else empty) guard of line 287 is
the identity on the strings Object.keys returns. -/
def sanitizeCore (s : String) : String :=
  String.mk (((collapseWs (stripEnds (jsTrim s.toList))).filter isWordChar))

/-- One cleaned column name: the sanitized key, or the synthetic
Column_(index+1) when sanitization leaves nothing (line 291). -/
def sanitizeCol (i : Nat) (col : String) : String :=
  let cleaned := sanitizeCore col
  if cleaned = "" then String.mk ("Column_".toList ++ natDecChars (i + 1)) else cleaned

/-! ## JavaScript objects: ordered string-keyed maps -/

/-- A cell of the normalized table: null, a cleaned string, or the number
a string was coerced to in the final pass. -/
inductive Cell where
  | cnull : Cell
  | cstr : String → Cell
  | cnum : JSNum → Cell
deriving DecidableEq, Repr

inductive ColType where
  | string : ColType
  | number : ColType
  | date : ColType
  | boolean : ColType
deriving DecidableEq, Repr

/-- A row object of the output: keys in insertion order, as property
assignment builds them. -/
abbrev Obj := List (String × Cell)

/-- Property assignment obj(k) := v on an insertion-ordered object: an
existing key keeps its position and gets the new value, a new key is
appended. -/
def oset {α : Type} (o : List (String × α)) (k : String) (v : α) : List (String × α) :=
  if o.any (fun p => p.1 == k) then
    o.map (fun p => if p.1 == k then (k, v) else p)
  else o ++ [(k, v)]

/-- Property read obj(k): the value at the key, if present. -/
def oget {α : Type} (o : List (String × α)) (k : String) : Option α :=
  (o.find? (fun p => p.1 == k)).map Prod.snd

/-- The object literal built by assigning the pairs left to right into an
empty object. -/
def buildObj {α : Type} (pairs : List (String × α)) : List (String × α) :=
  pairs.foldl (fun o p => oset o p.1 p.2) []

/-- First-occurrence de-duplication of a key list; seen accumulates the
keys already emitted. -/
def dedupFirst (seen : List String) : List String → List String
  | [] => []
  | k :: rest =>
    if k ∈ seen then dedupFirst seen rest else k :: dedupFirst (k :: seen) rest

/-- Whether a string is a canonical ECMAScript array index: decimal
digits with no leading zero (except the string 0 itself), below 2^32 - 1. -/
def isArrayIndexKey (s : String) : Bool :=
  match s.toList with
  | [] => false
  | c :: rest =>
    isDigitCh c && rest.all isDigitCh && (decide (c ≠ '0') || rest.isEmpty) &&
      decide (digitsVal (c :: rest) ≤ 4294967294)

def idxVal (s : String) : Nat := digitsVal s.toList

def insertIdx (k : String) : List String → List String
  | [] => [k]
  | x :: rest => if idxVal k < idxVal x then k :: x :: rest else x :: insertIdx k rest

/-- Sort array-index keys by numeric value, as OrdinaryOwnPropertyKeys
lists them first in ascending order. -/
def sortIdx : List String → List String
  | [] => []
  | x :: rest => insertIdx x (sortIdx rest)

def keyOrder (ks : List String) : List String :=
  sortIdx (ks.filter isArrayIndexKey) ++ ks.filter (fun k => !(isArrayIndexKey k))

/-- Object.keys(v): throws a TypeError on null (the error branch); array
indices in ascending order then string keys in insertion order for
objects; the character indices for strings; no own enumerable keys on the
other primitives. Duplicate literal keys collapse to their first
position, as JSON parsing resolves them. -/
def jsKeys : JVal → Except Unit (List String)
  | .vnull => .error ()
  | .vobj fs => .ok (keyOrder (dedupFirst [] (fs.map Prod.fst)))
  | .varr xs => .ok ((List.range xs.length).map natDec)
  | .vstr s => .ok ((List.range s.length).map natDec)
  | .vbool _ => .ok []
  | .vnum _ => .ok []

/-- The value stored under a duplicate-able literal key: the last one. -/
def objGet (fs : List (String × JVal)) (k : String) : Option JVal :=
  ((fs.filter (fun p => p.1 == k)).getLast?).map Prod.snd

def parseIndex (s : String) : Option Nat :=
  if isArrayIndexKey s then some (digitsVal s.toList) else none

/-- The property access v(k): throws a TypeError on null (the error
branch); a key lookup on objects; index and length access on arrays and
strings; undefined (the inner none) on the other primitives. Properties
inherited from prototypes are not modelled: the pipeline only reads keys
taken from the first record of a JSON array. -/
def jsGet : JVal → String → Except Unit (Option JVal)
  | .vnull, _ => .error ()
  | .vobj fs, k => .ok (objGet fs k)
  | .varr xs, k =>
    .ok (if k = "length" then some (.vnum xs.length)
         else (parseIndex k).bind (fun i => xs[i]?))
  | .vstr s, k =>
    .ok (if k = "length" then some (.vnum s.length)
         else (parseIndex k).bind (fun i => (s.toList[i]?).map (fun c => .vstr (String.mk [c]))))
  | .vbool _, _ => .ok none
  | .vnum _, _ => .ok none

/-! ## The table normalizer, convertJsonToParsedData (lines 264-398) -/

structure ParsedData where
  columns : List String
  rows : List Obj
  columnTypes : List (String × ColType)
deriving DecidableEq, Repr

/-- A cleaned cell as stored in a row: cleanValue's null becomes the null
cell, its string the string cell. -/
def cellOfClean : Option String → Cell
  | none => .cnull
  | some s => .cstr s

/-- One pass of the row-cleaning map (lines 297-305): for each column
position, read the value under the original key and store the cleaned
value under the sanitized name. The property read throws on a null
record, which makes the whole conversion throw. -/
def cleanRow (cols ccols : List String) (row : JVal) : Option Obj :=
  (cols.zip ccols).foldlM
    (fun o p =>
      match jsGet row p.1 with
      | .error _ => none
      | .ok v => some (oset o p.2 (cellOfClean (cleanValue v))))
    []

/-- The sample list collected for one column name (lines 317-325): for
each of the first sampleSize rows and each occurrence of the name in
cleanedColumns, push the row's value at that name when it is neither
null nor undefined. Cleaned cells are always strings when non-null. -/
def colSamples (sampleSize : Nat) (rows : List Obj) (ccols : List String) (col : String) :
    List String :=
  (rows.take sampleSize).flatMap (fun r =>
    ccols.filterMap (fun c =>
      if c = col then
        match oget r col with
        | some (.cstr s) => some s
        | _ => none
      else none))

/-- The boolean test of lines 337-341 on a cleaned (hence string) sample:
only the literal strings true and false qualify. -/
def isBoolSample (s : String) : Bool :=
  s == "true" || s == "false"

/-- The number test of lines 349-356 on a string sample: Number(s) is not
NaN and the trimmed string is non-empty. -/
def isNumSample (s : String) : Bool :=
  !(jsIsNaN (jsNumber s)) && !(jsTrim s.toList == [])

/-- The date test of lines 364-370: the host date parser accepts the
string and its length exceeds 5. -/
def isDateSample (dateOk : String → Bool) (s : String) : Bool :=
  dateOk s && decide (s.length > 5)

/-- The per-column inference of lines 328-379: empty sample means string;
otherwise the first of boolean, number, date whose test every sample
passes, else string. -/
def inferColType (dateOk : String → Bool) (samples : List String) : ColType :=
  if samples.isEmpty then .string
  else if samples.all isBoolSample then .boolean
  else if samples.all isNumSample then .number
  else if samples.all (isDateSample dateOk) then .date
  else .string

/-- The columnTypes object, assigned per cleaned column name in order
(line 328-379). -/
def typesOf (dateOk : String → Bool) (cc : List String) (crows : List Obj) :
    List (String × ColType) :=
  buildObj (cc.map (fun col =>
    (col, inferColType dateOk (colSamples (min 100 crows.length) crows cc col))))

/-- Number(cell) in the final pass: a string parses, a number stays, null
would be 0 and a missing key NaN (the guard excludes the null case). -/
def cellNumber : Option Cell → JSNum
  | some (.cstr s) => jsNumber s
  | some (.cnum n) => n
  | some .cnull => mkFin 0 0
  | none => .nan

/-- The final coercion pass on one row (lines 383-391): every column
whose inferred type is number and whose cell is not null gets its cell
replaced by Number of it. -/
def coerceRow (cc : List String) (ctypes : List (String × ColType)) (row : Obj) : Obj :=
  cc.foldl
    (fun r col =>
      if oget ctypes col = some ColType.number ∧ ¬(oget r col = some Cell.cnull) then
        oset r col (.cnum (cellNumber (oget r col)))
      else r)
    row

/-- The cleaned column names, one per key position (lines 286-292). -/
def cleanedColsOf (ks : List String) : List String :=
  ks.enum.map (fun p => sanitizeCol p.1 p.2)

/-- The assembly of the returned table from the cleaned rows (lines
307-397): infer the column types, run the final coercion pass over every
row, and return columns, rows and types. -/
def assembleTable (dateOk : String → Bool) (cc : List String) (crows : List Obj) :
    ParsedData :=
  ⟨cc, crows.map (coerceRow cc (typesOf dateOk cc crows)), typesOf dateOk cc crows⟩

/-- convertJsonToParsedData (lines 264-398). none models a thrown
TypeError: Object.keys of a null first element, or a property read on a
null later element. The empty and the column-less inputs return the
empty table; the null-key filter of line 275 is vacuous because
Object.keys only yields strings. -/
def convertJsonToParsedData (dateOk : String → Bool) (jsonData : List JVal) :
    Option ParsedData :=
  match jsonData with
  | [] => some ⟨[], [], []⟩
  | firstRow :: _ =>
    match jsKeys firstRow with
    | .error _ => none
    | .ok columns =>
      if columns.isEmpty then some ⟨[], [], []⟩
      else
        (jsonData.mapM (cleanRow columns (cleanedColsOf columns))).map
          (assembleTable dateOk (cleanedColsOf columns))

/-- A host date parser that accepts nothing: new Date rejects every
string fed to it. Used to instantiate the implementation-defined
parameter at concrete inputs whose interesting behaviour does not pass
through the date branch. -/
def noDates : String → Bool := fun _ => false

/-! ## Claim-side definitions (phrased from the specification's wording) -/

/-- A total property read: the value of jsGet when it does not throw,
undefined otherwise. -/
def jsGetTotal (v : JVal) (k : String) : Option JVal :=
  match jsGet v k with
  | .ok o => o
  | .error _ => none

/-- The sample the specification describes for one original key: the
non-null cleaned values drawn from the first min(100, rowCount) records. -/
def specColSample (jsonData : List JVal) (key : String) : List String :=
  (jsonData.take (min 100 jsonData.length)).filterMap
    (fun row => cleanValue (jsGetTotal row key))

/-- The candidate order the specification fixes ahead of the string
fallback. -/
def typeOrder : List ColType := [.boolean, .number, .date]

/-- Whether every sampled value qualifies for a candidate type; the
string fallback is unconditional. -/
def qualAll (dateOk : String → Bool) (sample : List String) : ColType → Bool
  | .boolean => sample.all isBoolSample
  | .number => sample.all isNumSample
  | .date => sample.all (isDateSample dateOk)
  | .string => true

/-- The first candidate in the fixed order for which every sampled value
qualifies; an empty sample defaults to string. -/
def firstQualifying (dateOk : String → Bool) (sample : List String) : ColType :=
  if sample = [] then .string
  else ((typeOrder.filter (qualAll dateOk sample)).head?).getD .string

/-! ## Concrete inputs used by counterexamples and witnesses -/

/-- The record of the specification's end-to-end example with a hash key. -/
def c2In : List JVal := [.vobj [("#", .vstr "1"), ("Name", .vstr "Ravi Kumar")]]

/-- The cleaned rows the row cleaner produces for c2In. -/
def c2Cleaned : List Obj := [[("Column_1", .cstr "1"), ("Name", .cstr "Ravi Kumar")]]

/-- The table c2In actually normalizes to. -/
def c2Out : ParsedData :=
  ⟨["Column_1", "Name"],
   [[("Column_1", .cnum (.fin 1 0)), ("Name", .cstr "Ravi Kumar")]],
   [("Column_1", .number), ("Name", .string)]⟩

/-- A record whose two keys sanitize to the same name. -/
def collideIn : List JVal := [.vobj [("a b", .vstr "1"), ("a_b", .vstr "x")]]

/-- Two records with colliding sanitized names, the second missing the
first original key. -/
def c7CexIn : List JVal :=
  [.vobj [("a b", .vstr "x"), ("a_b", .vstr "y")], .vobj [("a_b", .vstr "z")]]

/-- 101 records: one numeric column for the first hundred rows, then a
non-numeric value the sampler never sees. -/
def c9In : List JVal :=
  List.replicate 100 (.vobj [("A", .vstr "1")]) ++ [.vobj [("A", .vstr "abc")]]

/-- The table c9In normalizes to: a number column whose last cell is NaN. -/
def c9Out : ParsedData :=
  ⟨["A"], List.replicate 100 [("A", Cell.cnum (.fin 1 0))] ++ [[("A", Cell.cnum .nan)]],
   [("A", ColType.number)]⟩

/-- A one-record, one-column input used to instantiate hypotheses at a
concrete point. -/
def wSmallIn : List JVal := [.vobj [("A", .vstr "x")]]

/-- Two records, the second missing the only key of the first. -/
def w7In : List JVal := [.vobj [("A", .vstr "5")], .vobj []]

/-! ## Lemmas: character classes and trimming -/

theorem isWordChar_not_ws {c : Char} (h : isWordChar c = true) : isJsWs c = false := by
  simp only [isWordChar, decide_eq_true_eq] at h
  simp only [isJsWs, decide_eq_false_iff_not]
  omega

theorem isWordChar_not_strip {c : Char} (h : isWordChar c = true) : isStripChar c = false := by
  have hw := isWordChar_not_ws h
  simp only [isWordChar, decide_eq_true_eq] at h
  simp only [isStripChar, hw, Bool.or_false, Bool.or_eq_false_iff, beq_eq_false_iff_ne, ne_eq]
  constructor
  · rintro rfl; simp at h
  · rintro rfl; simp at h

theorem dropWhile_eq_self_of {α : Type} (p : α → Bool) :
    ∀ l : List α, (∀ c ∈ l, p c = false) → l.dropWhile p = l
  | [], _ => rfl
  | c :: rest, h => by
    have hc := h c (List.mem_cons_self c rest)
    have hrest := dropWhile_eq_self_of p rest (fun x hx => h x (List.mem_cons_of_mem _ hx))
    simp [List.dropWhile_cons, hc]

theorem head?_dropWhile {α : Type} (p : α → Bool) :
    ∀ l : List α, ∀ c, (l.dropWhile p).head? = some c → p c = false
  | [], c, h => by simp at h
  | a :: rest, c, h => by
    by_cases ha : p a
    · rw [List.dropWhile_cons, if_pos ha] at h
      exact head?_dropWhile p rest c h
    · rw [List.dropWhile_cons, if_neg ha] at h
      simp only [List.head?_cons, Option.some.injEq] at h
      rw [← h]
      exact Bool.eq_false_iff.mpr ha

theorem getLast?_dropWhile {α : Type} (p : α → Bool) :
    ∀ l : List α, l.dropWhile p ≠ [] → (l.dropWhile p).getLast? = l.getLast?
  | [], h => by simp at h
  | a :: rest, h => by
    by_cases ha : p a
    · rw [List.dropWhile_cons, if_pos ha] at h ⊢
      rcases rest with _ | ⟨b, t⟩
      · simp at h
      · rw [getLast?_dropWhile p (b :: t) h, List.getLast?_cons_cons]
    · rw [List.dropWhile_cons, if_neg ha]

theorem mem_dropWhile {α : Type} (p : α → Bool) :
    ∀ l : List α, ∀ c ∈ l.dropWhile p, c ∈ l
  | [], c, h => h
  | a :: rest, c, h => by
    by_cases ha : p a
    · rw [List.dropWhile_cons, if_pos ha] at h
      exact List.mem_cons_of_mem _ (mem_dropWhile p rest c h)
    · rwa [List.dropWhile_cons, if_neg ha] at h

theorem mem_jsTrim {c : Char} {l : List Char} (h : c ∈ jsTrim l) : c ∈ l := by
  unfold jsTrim at h
  rw [List.mem_reverse] at h
  have h2 := mem_dropWhile _ _ _ h
  rw [List.mem_reverse] at h2
  exact mem_dropWhile _ _ _ h2

theorem jsTrim_eq_self {l : List Char} (h : ∀ c ∈ l, isJsWs c = false) : jsTrim l = l := by
  unfold jsTrim
  rw [dropWhile_eq_self_of _ l h]
  rw [dropWhile_eq_self_of _ l.reverse (fun c hc => h c (List.mem_reverse.mp hc))]
  exact List.reverse_reverse l

theorem jsTrim_head {l : List Char} {c : Char} (h : (jsTrim l).head? = some c) :
    isJsWs c = false := by
  unfold jsTrim at h
  rw [List.head?_reverse] at h
  have hne : (l.dropWhile isJsWs).reverse.dropWhile isJsWs ≠ [] := by
    intro he; rw [he] at h; simp at h
  rw [getLast?_dropWhile _ _ hne, List.getLast?_reverse] at h
  exact head?_dropWhile _ _ _ h

theorem jsTrim_getLast {l : List Char} {c : Char} (h : (jsTrim l).getLast? = some c) :
    isJsWs c = false := by
  unfold jsTrim at h
  rw [List.getLast?_reverse] at h
  exact head?_dropWhile _ _ _ h

theorem stripEnds_eq_self {l : List Char} (h : ∀ c ∈ l, isStripChar c = false) :
    stripEnds l = l := by
  unfold stripEnds
  rw [dropWhile_eq_self_of _ l h]
  rw [dropWhile_eq_self_of _ l.reverse (fun c hc => h c (List.mem_reverse.mp hc))]
  exact List.reverse_reverse l

theorem collapseWsAux_eq_self (b : Bool) :
    ∀ l : List Char, (∀ c ∈ l, isJsWs c = false) → collapseWsAux b l = l
  | [], _ => rfl
  | c :: rest, h => by
    have hc := h c (List.mem_cons_self c rest)
    unfold collapseWsAux
    rw [if_neg (by simp [hc])]
    rw [collapseWsAux_eq_self false rest (fun x hx => h x (List.mem_cons_of_mem _ hx))]

theorem filter_eq_self_of {α : Type} (p : α → Bool) (l : List α) (h : ∀ c ∈ l, p c = true) :
    l.filter p = l :=
  List.filter_eq_self.mpr h

/-! ## Lemmas: sanitization is idempotent -/

theorem sanitizeCore_eq_self {s : String} (h : ∀ c ∈ s.toList, isWordChar c = true) :
    sanitizeCore s = s := by
  unfold sanitizeCore
  rw [jsTrim_eq_self (fun c hc => isWordChar_not_ws (h c hc))]
  rw [stripEnds_eq_self (fun c hc => isWordChar_not_strip (h c hc))]
  show String.mk ((collapseWsAux false s.toList).filter isWordChar) = s
  rw [collapseWsAux_eq_self false s.toList (fun c hc => isWordChar_not_ws (h c hc))]
  rw [filter_eq_self_of _ _ h]
  rfl

theorem mem_sanitizeCore {s : String} {c : Char} (h : c ∈ (sanitizeCore s).toList) :
    isWordChar c = true := by
  unfold sanitizeCore at h
  exact List.of_mem_filter h

theorem isWordChar_digitCh (n : Nat) : isWordChar (digitCh n) = true := by
  have h : n % 10 < 10 := Nat.mod_lt n (by norm_num)
  unfold digitCh
  interval_cases hm : n % 10 <;> decide

theorem mem_natDecAux :
    ∀ fuel n : Nat, ∀ c ∈ natDecAux fuel n, isWordChar c = true
  | 0, _, c, h => by simp [natDecAux] at h
  | fuel + 1, 0, c, h => by simp [natDecAux] at h
  | fuel + 1, n + 1, c, h => by
    unfold natDecAux at h
    rcases List.mem_append.mp h with h1 | h2
    · exact mem_natDecAux fuel ((n + 1) / 10) c h1
    · rcases List.mem_singleton.mp h2 with rfl
      exact isWordChar_digitCh (n + 1)

theorem mem_natDecChars {n : Nat} {c : Char} (h : c ∈ natDecChars n) :
    isWordChar c = true := by
  unfold natDecChars at h
  by_cases h0 : n = 0
  · rw [if_pos h0] at h
    rcases List.mem_singleton.mp h with rfl
    decide
  · rw [if_neg h0] at h
    exact mem_natDecAux n n c h

theorem sanitizeCol_ne_empty (i : Nat) (s : String) : sanitizeCol i s ≠ "" := by
  unfold sanitizeCol
  by_cases he : sanitizeCore s = ""
  · rw [if_pos he]
    intro hc
    have : ("Column_".toList ++ natDecChars (i + 1)) = ([] : List Char) := by
      have := congrArg String.toList hc
      exact this
    simp at this
  · rwa [if_neg he]

theorem mem_sanitizeCol {i : Nat} {s : String} {c : Char}
    (h : c ∈ (sanitizeCol i s).toList) : isWordChar c = true := by
  unfold sanitizeCol at h
  by_cases he : sanitizeCore s = ""
  · rw [if_pos he] at h
    have h2 : c ∈ ("Column_".toList ++ natDecChars (i + 1)) := h
    rcases List.mem_append.mp h2 with h3 | h3
    · fin_cases h3 <;> decide
    · exact mem_natDecChars h3
  · rw [if_neg he] at h
    exact mem_sanitizeCore h

/-! ## Lemmas: object reads and writes -/

theorem oget_nil {α : Type} (k : String) : oget ([] : List (String × α)) k = none := rfl

theorem oget_cons_pos {α : Type} {p : String × α} {k : String} (o : List (String × α))
    (h : (p.1 == k) = true) : oget (p :: o) k = some p.2 := by
  show (match p.1 == k with
    | true => some p
    | false => List.find? (fun q => q.1 == k) o).map Prod.snd = some p.2
  rw [h]
  rfl

theorem oget_cons_neg {α : Type} {p : String × α} {k : String} (o : List (String × α))
    (h : (p.1 == k) = false) : oget (p :: o) k = oget o k := by
  show (match p.1 == k with
    | true => some p
    | false => List.find? (fun q => q.1 == k) o).map Prod.snd = oget o k
  rw [h]
  rfl

theorem oget_map_update_ne {α : Type} {k k' : String} (v : α) (h : k' ≠ k) :
    ∀ o : List (String × α),
      oget (o.map (fun p => if p.1 == k then (k, v) else p)) k' = oget o k'
  | [] => rfl
  | p :: rest => by
    have ih := oget_map_update_ne (k := k) v h rest
    have h1 : (k == k') = false := beq_eq_false_iff_ne.mpr (fun he => h he.symm)
    rw [List.map_cons]
    cases hb : (p.1 == k) with
    | true =>
      have hpk : p.1 = k := eq_of_beq hb
      have h2 : (p.1 == k') = false := by rw [hpk]; exact h1
      rw [if_pos rfl]
      rw [oget_cons_neg _ (by exact h1), oget_cons_neg _ h2]
      exact ih
    | false =>
      rw [if_neg Bool.false_ne_true]
      cases hk' : (p.1 == k') with
      | true => rw [oget_cons_pos _ hk', oget_cons_pos _ hk']
      | false =>
        rw [oget_cons_neg _ hk', oget_cons_neg _ hk']
        exact ih

theorem oget_map_update_self {α : Type} {k : String} (v : α) :
    ∀ o : List (String × α), o.any (fun p => p.1 == k) = true →
      oget (o.map (fun p => if p.1 == k then (k, v) else p)) k = some v
  | [], hany => by simp at hany
  | p :: rest, hany => by
    rw [List.map_cons]
    cases hb : (p.1 == k) with
    | true =>
      rw [if_pos rfl]
      exact oget_cons_pos _ (by exact beq_self_eq_true k)
    | false =>
      rw [List.any_cons, hb, Bool.false_or] at hany
      rw [if_neg Bool.false_ne_true]
      rw [oget_cons_neg _ hb]
      exact oget_map_update_self v rest hany

theorem oget_append_single_self {α : Type} {k : String} (v : α) :
    ∀ o : List (String × α), o.any (fun p => p.1 == k) = false →
      oget (o ++ [(k, v)]) k = some v
  | [], _ => by
    rw [List.nil_append]
    exact oget_cons_pos _ (by exact beq_self_eq_true k)
  | p :: rest, hany => by
    rw [List.any_cons, Bool.or_eq_false_iff] at hany
    rw [List.cons_append, oget_cons_neg _ hany.1]
    exact oget_append_single_self v rest hany.2

theorem oget_append_single_ne {α : Type} {k k' : String} (v : α) (h : k' ≠ k) :
    ∀ o : List (String × α), oget (o ++ [(k, v)]) k' = oget o k'
  | [] => by
    have h1 : (k == k') = false := beq_eq_false_iff_ne.mpr (fun he => h he.symm)
    rw [List.nil_append]
    rw [oget_cons_neg _ (by exact h1)]
  | p :: rest => by
    have ih := oget_append_single_ne (k := k) v h rest
    rw [List.cons_append]
    cases hk' : (p.1 == k') with
    | true => rw [oget_cons_pos _ hk', oget_cons_pos _ hk']
    | false =>
      rw [oget_cons_neg _ hk', oget_cons_neg _ hk']
      exact ih

theorem oget_oset {α : Type} (o : List (String × α)) (k k' : String) (v : α) :
    oget (oset o k v) k' = if k' = k then some v else oget o k' := by
  unfold oset
  cases hany : o.any (fun p => p.1 == k) with
  | true =>
    rw [if_pos rfl]
    by_cases hkk : k' = k
    · subst hkk
      rw [if_pos rfl]
      exact oget_map_update_self v o hany
    · rw [if_neg hkk]
      exact oget_map_update_ne v hkk o
  | false =>
    rw [if_neg Bool.false_ne_true]
    by_cases hkk : k' = k
    · subst hkk
      rw [if_pos rfl]
      exact oget_append_single_self v o hany
    · rw [if_neg hkk]
      exact oget_append_single_ne v hkk o

theorem any_fst_of_mem {α : Type} {o : List (String × α)} {k : String}
    (h : k ∈ o.map Prod.fst) : o.any (fun p => p.1 == k) = true := by
  rcases List.mem_map.mp h with ⟨p, hp, hpk⟩
  exact List.any_eq_true.mpr ⟨p, hp, by simp [hpk]⟩

theorem map_fst_oset_mem {α : Type} {o : List (String × α)} {k : String} (v : α)
    (h : k ∈ o.map Prod.fst) : (oset o k v).map Prod.fst = o.map Prod.fst := by
  unfold oset
  rw [if_pos (any_fst_of_mem h)]
  rw [List.map_map]
  apply List.map_congr_left
  intro p _
  cases hp : (p.1 == k) with
  | true =>
    have : p.1 = k := by simpa using hp
    simp [Function.comp, hp, this]
  | false => simp [Function.comp, hp]

theorem map_fst_oset_not_mem {α : Type} {o : List (String × α)} {k : String} (v : α)
    (h : ¬ k ∈ o.map Prod.fst) : (oset o k v).map Prod.fst = o.map Prod.fst ++ [k] := by
  unfold oset
  have hany : o.any (fun p => p.1 == k) = false := by
    rcases hb : o.any (fun p => p.1 == k) with _ | _
    · rfl
    · rcases List.any_eq_true.mp hb with ⟨p, hp, hpk⟩
      exact absurd (List.mem_map.mpr ⟨p, hp, by simpa using hpk⟩) h
  rw [if_neg (by simp [hany])]
  simp

theorem foldl_oset_append {α : Type} :
    ∀ (pairs : List (String × α)) (o : List (String × α)),
      (pairs.map Prod.fst).Nodup →
      (∀ k ∈ pairs.map Prod.fst, ¬ k ∈ o.map Prod.fst) →
      pairs.foldl (fun acc p => oset acc p.1 p.2) o = o ++ pairs
  | [], o, _, _ => by simp
  | p :: ps, o, hnd, hdisj => by
    rw [List.map_cons, List.nodup_cons] at hnd
    have hp1 : ¬ p.1 ∈ o.map Prod.fst := hdisj p.1 (by simp)
    have hstep : oset o p.1 p.2 = o ++ [p] := by
      unfold oset
      have hany : o.any (fun q => q.1 == p.1) = false := by
        rcases hb : o.any (fun q => q.1 == p.1) with _ | _
        · rfl
        · rcases List.any_eq_true.mp hb with ⟨q, hq, hqk⟩
          exact absurd (List.mem_map.mpr ⟨q, hq, by simpa using hqk⟩) hp1
      rw [if_neg (by simp [hany])]
    show (p :: ps).foldl (fun acc q => oset acc q.1 q.2) o = o ++ (p :: ps)
    rw [List.foldl_cons, hstep]
    rw [foldl_oset_append ps (o ++ [p]) hnd.2 ?_]
    · simp
    · intro k hk
      rw [List.map_append, List.mem_append]
      rintro (hko | hkp)
      · exact hdisj k (List.mem_cons_of_mem _ hk) hko
      · have hk1 : k = p.1 := by simpa using hkp
        exact hnd.1 (hk1 ▸ hk)

theorem buildObj_eq_self {α : Type} (pairs : List (String × α))
    (h : (pairs.map Prod.fst).Nodup) : buildObj pairs = pairs := by
  unfold buildObj
  rw [foldl_oset_append pairs [] h (by simp)]
  simp

theorem oget_foldl_oset {α : Type} :
    ∀ (pairs : List (String × α)) (o : List (String × α)) (k : String),
      oget (pairs.foldl (fun acc p => oset acc p.1 p.2) o) k =
        pairs.foldl (fun acc p => if p.1 = k then some p.2 else acc) (oget o k)
  | [], _, _ => rfl
  | p :: ps, o, k => by
    rw [List.foldl_cons, List.foldl_cons]
    rw [oget_foldl_oset ps (oset o p.1 p.2) k]
    rw [oget_oset]
    by_cases hk : p.1 = k
    · rw [if_pos hk, if_pos hk.symm]
    · rw [if_neg hk, if_neg (fun he => hk he.symm)]

theorem foldl_if_mem {α : Type} (f : String → α) (k : String) :
    ∀ (cc : List String) (dflt : Option α),
      cc.foldl (fun acc c => if c = k then some (f c) else acc) dflt =
        if k ∈ cc then some (f k) else dflt
  | [], _ => by simp
  | c :: rest, dflt => by
    rw [List.foldl_cons, foldl_if_mem f k rest]
    by_cases hm : k ∈ rest
    · rw [if_pos hm, if_pos (List.mem_cons_of_mem _ hm)]
    · rw [if_neg hm]
      by_cases hc : c = k
      · rw [if_pos hc, if_pos (by simp [hc]), hc]
      · rw [if_neg hc, if_neg (by simp [List.mem_cons, hm]; exact fun he => hc he.symm)]

/-- The lookup of a per-name object built from a name list: the value of
the common function at the name, when the name occurs. -/
theorem oget_buildObj_map {α : Type} (f : String → α) (cc : List String) (k : String) :
    oget (buildObj (cc.map (fun c => (c, f c)))) k = if k ∈ cc then some (f k) else none := by
  unfold buildObj
  rw [oget_foldl_oset, List.foldl_map, oget_nil]
  exact foldl_if_mem f k cc none

/-! ## Lemmas: the row-cleaning pass -/

theorem jsGet_ok {row : JVal} (h : row.isNull = false) (k : String) :
    jsGet row k = .ok (jsGetTotal row k) := by
  cases row <;> first
    | rfl
    | simp [JVal.isNull] at h

theorem cleanRow_go {row : JVal} (h : row.isNull = false) :
    ∀ (pairs : List (String × String)) (o : Obj),
      pairs.foldlM
        (fun o p =>
          match jsGet row p.1 with
          | .error _ => none
          | .ok v => some (oset o p.2 (cellOfClean (cleanValue v))))
        o =
      some (pairs.foldl
        (fun o p => oset o p.2 (cellOfClean (cleanValue (jsGetTotal row p.1)))) o)
  | [], _ => rfl
  | p :: ps, o => by
    rw [List.foldlM_cons, jsGet_ok h p.1]
    exact cleanRow_go h ps (oset o p.2 (cellOfClean (cleanValue (jsGetTotal row p.1))))

/-- On a non-null record, the row cleaner builds exactly the object of
sanitized-name, cleaned-cell pairs in column order. -/
theorem cleanRow_eq {cols ccols : List String} {row : JVal} (h : row.isNull = false) :
    cleanRow cols ccols row =
      some (buildObj ((cols.zip ccols).map
        (fun p => (p.2, cellOfClean (cleanValue (jsGetTotal row p.1)))))) := by
  unfold cleanRow buildObj
  rw [cleanRow_go h, List.foldl_map]

theorem cleanRow_null {cols ccols : List String} (hc : cols ≠ []) (hcc : ccols ≠ []) :
    cleanRow cols ccols .vnull = none := by
  rcases cols with _ | ⟨c, cs⟩
  · exact absurd rfl hc
  rcases ccols with _ | ⟨c2, cs2⟩
  · exact absurd rfl hcc
  rfl

theorem mapM_eq_map {α β : Type} (f : α → Option β) (g : α → β) :
    ∀ l : List α, (∀ x ∈ l, f x = some (g x)) → l.mapM f = some (l.map g)
  | [], _ => rfl
  | x :: xs, h => by
    rw [List.mapM_cons, h x (List.mem_cons_self x xs)]
    rw [mapM_eq_map f g xs (fun y hy => h y (List.mem_cons_of_mem _ hy))]
    rfl

theorem mapM_some_getElem {α β : Type} (f : α → Option β) :
    ∀ (l : List α) (ys : List β), l.mapM f = some ys →
      ∀ (i : Nat) (x : α), l[i]? = some x → ∃ y, ys[i]? = some y ∧ f x = some y
  | [], _, _, i, x, hx => by simp at hx
  | a :: l, ys, h, i, x, hx => by
    rw [List.mapM_cons] at h
    cases hfa : f a with
    | none => rw [hfa] at h; simp at h
    | some y0 =>
      rw [hfa] at h
      cases hrest : l.mapM f with
      | none => rw [hrest] at h; simp at h
      | some ys0 =>
        rw [hrest] at h
        have hys : ys = y0 :: ys0 := by
          have : some (y0 :: ys0) = some ys := h
          exact (Option.some.injEq _ _ ▸ this).symm
        subst hys
        cases i with
        | zero =>
          have hxa : a = x := by simpa using hx
          exact ⟨y0, by simp, hxa ▸ hfa⟩
        | succ n =>
          have hx2 : l[n]? = some x := by simpa using hx
          rcases mapM_some_getElem f l ys0 hrest n x hx2 with ⟨y, hy1, hy2⟩
          exact ⟨y, by simpa using hy1, hy2⟩

theorem mapM_some_of_mem {α β : Type} {f : α → Option β} {l : List α} {ys : List β}
    (h : l.mapM f = some ys) {x : α} (hx : x ∈ l) : ∃ y, f x = some y := by
  rcases List.getElem_of_mem hx with ⟨i, hi, hget⟩
  have hx2 : l[i]? = some x := by
    rw [List.getElem?_eq_getElem hi]
    exact congrArg some hget
  rcases mapM_some_getElem f l ys h i x hx2 with ⟨y, _, hy⟩
  exact ⟨y, hy⟩

/-! ## Lemmas: the final coercion pass -/

theorem coerce_fold_oget_ne {ctypes : List (String × ColType)} {col : String}
    (h : ¬ oget ctypes col = some ColType.number) :
    ∀ (cs : List String) (r : Obj),
      oget (cs.foldl
        (fun r c =>
          if oget ctypes c = some ColType.number ∧ ¬(oget r c = some Cell.cnull) then
            oset r c (.cnum (cellNumber (oget r c)))
          else r) r) col = oget r col
  | [], _ => rfl
  | c :: cs, r => by
    rw [List.foldl_cons, coerce_fold_oget_ne h cs _]
    by_cases hc : oget ctypes c = some ColType.number ∧ ¬(oget r c = some Cell.cnull)
    · rw [if_pos hc, oget_oset, if_neg (fun he : col = c => h (he ▸ hc.1))]
    · rw [if_neg hc]

theorem coerce_fold_oget_cnull {ctypes : List (String × ColType)} {col : String} :
    ∀ (cs : List String) (r : Obj), oget r col = some Cell.cnull →
      oget (cs.foldl
        (fun r c =>
          if oget ctypes c = some ColType.number ∧ ¬(oget r c = some Cell.cnull) then
            oset r c (.cnum (cellNumber (oget r c)))
          else r) r) col = some Cell.cnull
  | [], _, hr => hr
  | c :: cs, r, hr => by
    rw [List.foldl_cons]
    apply coerce_fold_oget_cnull cs
    by_cases hc : oget ctypes c = some ColType.number ∧ ¬(oget r c = some Cell.cnull)
    · by_cases hcol : c = col
      · subst hcol
        exact absurd hr hc.2
      · rw [if_pos hc, oget_oset, if_neg (fun he : col = c => hcol he.symm)]
        exact hr
    · rw [if_neg hc]
      exact hr

theorem coerce_fold_step_cells {ctypes : List (String × ColType)} {col : String}
    (r : Obj) (c : String) :
    (oget r col = some Cell.cnull ∨ ∃ n, oget r col = some (Cell.cnum n)) →
      (oget (if oget ctypes c = some ColType.number ∧ ¬(oget r c = some Cell.cnull) then
            oset r c (.cnum (cellNumber (oget r c)))
          else r) col = some Cell.cnull ∨
        ∃ n, oget (if oget ctypes c = some ColType.number ∧ ¬(oget r c = some Cell.cnull) then
            oset r c (.cnum (cellNumber (oget r c)))
          else r) col = some (Cell.cnum n)) := by
  intro hq
  by_cases hc : oget ctypes c = some ColType.number ∧ ¬(oget r c = some Cell.cnull)
  · rw [if_pos hc]
    by_cases hcol : col = c
    · subst hcol
      right
      exact ⟨cellNumber (oget r col), by rw [oget_oset, if_pos rfl]⟩
    · rw [oget_oset, if_neg hcol]
      exact hq
  · rw [if_neg hc]
    exact hq

theorem coerce_fold_cells_pres {ctypes : List (String × ColType)} {col : String} :
    ∀ (cs : List String) (r : Obj),
      (oget r col = some Cell.cnull ∨ ∃ n, oget r col = some (Cell.cnum n)) →
      (oget (cs.foldl
        (fun r c =>
          if oget ctypes c = some ColType.number ∧ ¬(oget r c = some Cell.cnull) then
            oset r c (.cnum (cellNumber (oget r c)))
          else r) r) col = some Cell.cnull ∨
        ∃ n, oget (cs.foldl
          (fun r c =>
            if oget ctypes c = some ColType.number ∧ ¬(oget r c = some Cell.cnull) then
              oset r c (.cnum (cellNumber (oget r c)))
            else r) r) col = some (Cell.cnum n))
  | [], _, hq => hq
  | c :: cs, r, hq => by
    rw [List.foldl_cons]
    exact coerce_fold_cells_pres cs _ (coerce_fold_step_cells r c hq)

/-- After the final pass, a cell of a number-typed column that the pass
visited is null or numeric, whatever it held before. -/
theorem coerce_fold_cells {ctypes : List (String × ColType)} {col : String}
    (hty : oget ctypes col = some ColType.number) :
    ∀ (cs : List String) (r : Obj), col ∈ cs →
      (oget (cs.foldl
        (fun r c =>
          if oget ctypes c = some ColType.number ∧ ¬(oget r c = some Cell.cnull) then
            oset r c (.cnum (cellNumber (oget r c)))
          else r) r) col = some Cell.cnull ∨
        ∃ n, oget (cs.foldl
          (fun r c =>
            if oget ctypes c = some ColType.number ∧ ¬(oget r c = some Cell.cnull) then
              oset r c (.cnum (cellNumber (oget r c)))
            else r) r) col = some (Cell.cnum n))
  | [], _, hm => absurd hm (List.not_mem_nil col)
  | c :: cs, r, hm => by
    rw [List.foldl_cons]
    by_cases hcol : c = col
    · subst hcol
      apply coerce_fold_cells_pres cs
      by_cases hnull : oget r c = some Cell.cnull
      · rw [if_neg (fun hc => hc.2 hnull)]
        exact Or.inl hnull
      · rw [if_pos ⟨hty, hnull⟩]
        right
        exact ⟨cellNumber (oget r c), by rw [oget_oset, if_pos rfl]⟩
    · rcases List.mem_cons.mp hm with he | hm2
      · exact absurd he.symm hcol
      · exact coerce_fold_cells hty cs _ hm2

theorem coerceRow_oget_ne {cc : List String} {ctypes : List (String × ColType)}
    {col : String} (h : ¬ oget ctypes col = some ColType.number) (r : Obj) :
    oget (coerceRow cc ctypes r) col = oget r col :=
  coerce_fold_oget_ne h cc r

theorem coerceRow_oget_cnull {cc : List String} {ctypes : List (String × ColType)}
    {col : String} (r : Obj) (h : oget r col = some Cell.cnull) :
    oget (coerceRow cc ctypes r) col = some Cell.cnull :=
  coerce_fold_oget_cnull cc r h

theorem coerceRow_cells {cc : List String} {ctypes : List (String × ColType)}
    {col : String} (hty : oget ctypes col = some ColType.number) (hm : col ∈ cc) (r : Obj) :
    oget (coerceRow cc ctypes r) col = some Cell.cnull ∨
      ∃ n, oget (coerceRow cc ctypes r) col = some (Cell.cnum n) :=
  coerce_fold_cells hty cc r hm

/-! ## Lemmas: the shape of the whole conversion -/

theorem jsKeys_ok {v : JVal} (h : v.isNull = false) : ∃ ks, jsKeys v = .ok ks := by
  cases v <;> first
    | exact ⟨_, rfl⟩
    | simp [JVal.isNull] at h

theorem convert_cons_eq {dateOk : String → Bool} {first : JVal} {rest : List JVal}
    {ks : List String} (hk : jsKeys first = .ok ks) (hne : ks.isEmpty = false)
    {crows : List Obj}
    (hrows : (first :: rest).mapM (cleanRow ks (cleanedColsOf ks)) = some crows) :
    convertJsonToParsedData dateOk (first :: rest) =
      some (assembleTable dateOk (cleanedColsOf ks) crows) := by
  show (match jsKeys first with
    | Except.error _ => none
    | Except.ok columns =>
      if columns.isEmpty = true then some (⟨[], [], []⟩ : ParsedData)
      else ((first :: rest).mapM (cleanRow columns (cleanedColsOf columns))).map
        (assembleTable dateOk (cleanedColsOf columns))) =
    some (assembleTable dateOk (cleanedColsOf ks) crows)
  rw [hk]
  show (if ks.isEmpty = true then some (⟨[], [], []⟩ : ParsedData)
    else ((first :: rest).mapM (cleanRow ks (cleanedColsOf ks))).map
      (assembleTable dateOk (cleanedColsOf ks))) = _
  rw [hne, if_neg Bool.false_ne_true, hrows]
  rfl

theorem convert_inv {dateOk : String → Bool} {input : List JVal} {t : ParsedData}
    (h : convertJsonToParsedData dateOk input = some t) :
    t = ⟨[], [], []⟩ ∨
      ∃ first rest ks crows,
        input = first :: rest ∧ jsKeys first = .ok ks ∧ ks.isEmpty = false ∧
          input.mapM (cleanRow ks (cleanedColsOf ks)) = some crows ∧
          t = assembleTable dateOk (cleanedColsOf ks) crows := by
  cases input with
  | nil =>
    left
    have h2 : some (⟨[], [], []⟩ : ParsedData) = some t := h
    exact (Option.some.inj h2).symm
  | cons first rest =>
    have h1 : (match jsKeys first with
      | Except.error _ => none
      | Except.ok columns =>
        if columns.isEmpty = true then some (⟨[], [], []⟩ : ParsedData)
        else ((first :: rest).mapM (cleanRow columns (cleanedColsOf columns))).map
          (assembleTable dateOk (cleanedColsOf columns))) = some t := h
    cases hk : jsKeys first with
    | error e =>
      rw [hk] at h1
      exact Option.noConfusion h1
    | ok ks =>
      rw [hk] at h1
      have h2 : (if ks.isEmpty = true then some (⟨[], [], []⟩ : ParsedData)
        else ((first :: rest).mapM (cleanRow ks (cleanedColsOf ks))).map
          (assembleTable dateOk (cleanedColsOf ks))) = some t := h1
      cases hem : ks.isEmpty with
      | true =>
        rw [hem, if_pos rfl] at h2
        left
        exact (Option.some.inj h2).symm
      | false =>
        rw [hem, if_neg Bool.false_ne_true] at h2
        cases hrows : (first :: rest).mapM (cleanRow ks (cleanedColsOf ks)) with
        | none =>
          rw [hrows] at h2
          exact Option.noConfusion h2
        | some crows =>
          rw [hrows] at h2
          right
          exact ⟨first, rest, ks, crows, rfl, hk, hem, hrows, (Option.some.inj h2).symm⟩

theorem cleanedColsOf_length (ks : List String) : (cleanedColsOf ks).length = ks.length := by
  unfold cleanedColsOf
  rw [List.length_map, List.enum_length]

theorem cleanedColsOf_getElem (ks : List String) (i : Nat) :
    (cleanedColsOf ks)[i]? = (ks[i]?).map (sanitizeCol i) := by
  unfold cleanedColsOf
  rw [List.getElem?_map, List.getElem?_enum]
  cases ks[i]? <;> rfl

theorem cleanedColsOf_ne_nil {ks : List String} (h : ks.isEmpty = false) :
    cleanedColsOf ks ≠ [] := by
  intro he
  have h1 := cleanedColsOf_length ks
  rw [he] at h1
  cases ks with
  | nil => simp at h
  | cons a l => simp at h1

/-- Every record of a successfully cleaned input is non-null (the
property reads of the cleaning pass would have thrown on a null one). -/
theorem rows_nonnull {ks : List String} {input : List JVal} {crows : List Obj}
    (hne : ks.isEmpty = false)
    (h : input.mapM (cleanRow ks (cleanedColsOf ks)) = some crows) :
    ∀ v ∈ input, v.isNull = false := by
  intro v hv
  cases hvn : v.isNull with
  | false => rfl
  | true =>
    rcases mapM_some_of_mem h hv with ⟨y, hy⟩
    cases v <;> simp [JVal.isNull] at hvn
    rw [cleanRow_null (by rintro rfl; simp at hne) (cleanedColsOf_ne_nil hne)] at hy
    exact Option.noConfusion hy

/-- The cleaned rows are the recordwise image of the cleaning function. -/
theorem crows_eq {ks : List String} {input : List JVal} {crows : List Obj}
    (hnn : ∀ v ∈ input, v.isNull = false)
    (h : input.mapM (cleanRow ks (cleanedColsOf ks)) = some crows) :
    crows = input.map (fun row => buildObj ((ks.zip (cleanedColsOf ks)).map
      (fun p => (p.2, cellOfClean (cleanValue (jsGetTotal row p.1)))))) := by
  have h2 := mapM_eq_map (cleanRow ks (cleanedColsOf ks))
    (fun row => buildObj ((ks.zip (cleanedColsOf ks)).map
      (fun p => (p.2, cellOfClean (cleanValue (jsGetTotal row p.1)))))) input
    (fun x hx => cleanRow_eq (hnn x hx))
  rw [h] at h2
  exact Option.some.inj h2

theorem oget_typesOf (dateOk : String → Bool) (cc : List String) (crows : List Obj)
    (k : String) :
    oget (typesOf dateOk cc crows) k =
      if k ∈ cc then
        some (inferColType dateOk (colSamples (min 100 crows.length) crows cc k))
      else none :=
  oget_buildObj_map _ cc k

theorem typesOf_map_fst {dateOk : String → Bool} {cc : List String} (crows : List Obj)
    (hnd : cc.Nodup) : (typesOf dateOk cc crows).map Prod.fst = cc := by
  unfold typesOf
  have hfst : (cc.map (fun col =>
      (col, inferColType dateOk (colSamples (min 100 crows.length) crows cc col)))).map
        Prod.fst = cc := by
    rw [List.map_map]
    show List.map (fun c : String => c) cc = cc
    exact List.map_id' cc
  rw [buildObj_eq_self _ (by rw [hfst]; exact hnd), hfst]

/-! ## Lemmas: the sample a column's type is inferred from -/

theorem mem_of_getElem?_eq {α : Type} :
    ∀ (l : List α) (i : Nat) (a : α), l[i]? = some a → a ∈ l
  | [], i, a, h => by simp at h
  | x :: l, 0, a, h => by
    have : x = a := by simpa using h
    exact this ▸ List.mem_cons_self x l
  | x :: l, n + 1, a, h =>
    List.mem_cons_of_mem _ (mem_of_getElem?_eq l n a (by simpa using h))

theorem filterMap_none_of {α β : Type} {f : α → Option β} :
    ∀ l : List α, (∀ a ∈ l, f a = none) → l.filterMap f = []
  | [], _ => rfl
  | a :: l, h => by
    rw [List.filterMap_cons, h a (List.mem_cons_self a l)]
    exact filterMap_none_of l (fun x hx => h x (List.mem_cons_of_mem _ hx))

/-- Filtering an if whose body does not depend on the scanned name: on a
duplicate-free list containing the name, the body appears exactly once. -/
theorem filterMap_const_if {α : Type} (h : Option α) (k : String) :
    ∀ cc : List String, cc.Nodup → k ∈ cc →
      cc.filterMap (fun c => if c = k then h else none) = h.toList
  | [], _, hm => absurd hm (List.not_mem_nil k)
  | c :: rest, hnd, hm => by
    rw [List.nodup_cons] at hnd
    by_cases hc : c = k
    · subst hc
      have hrest : List.filterMap (fun x => if x = c then h else none) rest = [] :=
        filterMap_none_of rest
          (fun a ha => by rw [if_neg (fun he : a = c => hnd.1 (he ▸ ha))])
      rw [List.filterMap_cons]
      rw [if_pos rfl]
      cases h with
      | none => exact hrest
      | some x => rw [hrest]; rfl
    · rw [List.filterMap_cons]
      rw [if_neg hc]
      have hm2 : k ∈ rest := by
        rcases List.mem_cons.mp hm with he | hm2
        · exact absurd he.symm hc
        · exact hm2
      exact filterMap_const_if h k rest hnd.2 hm2

theorem flatMap_toList_eq_filterMap {α β : Type} (f : α → Option β) :
    ∀ l : List α, l.flatMap (fun x => (f x).toList) = l.filterMap f
  | [] => rfl
  | a :: l => by
    rw [List.flatMap_cons, List.filterMap_cons]
    cases hfa : f a with
    | none =>
      show ([] : List β) ++ l.flatMap (fun x => (f x).toList) = List.filterMap f l
      rw [List.nil_append]
      exact flatMap_toList_eq_filterMap f l
    | some b =>
      show [b] ++ l.flatMap (fun x => (f x).toList) = b :: l.filterMap f
      rw [List.singleton_append, flatMap_toList_eq_filterMap f l]

theorem flatMap_map {α β γ : Type} (g : α → β) (f : β → List γ) :
    ∀ l : List α, (l.map g).flatMap f = l.flatMap (fun x => f (g x))
  | [] => rfl
  | a :: l => by
    rw [List.map_cons, List.flatMap_cons, List.flatMap_cons, flatMap_map g f l]

/-- The lookup of a cleaned row at the i-th sanitized name: the cleaned
value of the i-th original key, provided the sanitized names are
duplicate-free. -/
theorem oget_zip_pairs {β : Type} (G : String × String → β) :
    ∀ (ks ccols : List String) (i : Nat) (key k : String), ccols.Nodup →
      ks[i]? = some key → ccols[i]? = some k →
      oget ((ks.zip ccols).map (fun p => (p.2, G p))) k = some (G (key, k))
  | [], _, i, key, k, _, hks, _ => by simp at hks
  | _ :: _, [], i, key, k, _, _, hcc => by simp at hcc
  | k0 :: ktl, c0 :: ctl, 0, key, k, _, hks, hcc => by
    have h1 : k0 = key := by simpa using hks
    have h2 : c0 = k := by simpa using hcc
    subst h1; subst h2
    rw [List.zip_cons_cons, List.map_cons]
    exact oget_cons_pos _ (by exact beq_self_eq_true c0)
  | k0 :: ktl, c0 :: ctl, n + 1, key, k, hnd, hks, hcc => by
    rw [List.nodup_cons] at hnd
    have hks2 : ktl[n]? = some key := by simpa using hks
    have hcc2 : ctl[n]? = some k := by simpa using hcc
    have hkm : k ∈ ctl := mem_of_getElem?_eq ctl n k hcc2
    have hne : (c0 == k) = false :=
      beq_eq_false_iff_ne.mpr (fun he => hnd.1 (he ▸ hkm))
    rw [List.zip_cons_cons, List.map_cons]
    rw [oget_cons_neg _ (by exact hne)]
    exact oget_zip_pairs G ktl ctl n key k hnd.2 hks2 hcc2

theorem map_fst_zip_pairs {β : Type} (G : String × String → β) (ks ccols : List String)
    (h : ccols.length ≤ ks.length) :
    ((ks.zip ccols).map (fun p => (p.2, G p))).map Prod.fst = ccols := by
  rw [List.map_map]
  show (ks.zip ccols).map (fun p => p.2) = ccols
  exact List.map_snd_zip ks ccols h

/-- The samples the implementation collects for the i-th column name are
exactly the specification's sample for the i-th original key, provided
the sanitized names do not collide. -/
theorem colSamples_eq_spec {ks : List String} {input : List JVal} {crows : List Obj}
    (hnd : (cleanedColsOf ks).Nodup)
    (hnn : ∀ v ∈ input, v.isNull = false)
    (hrows : input.mapM (cleanRow ks (cleanedColsOf ks)) = some crows)
    {i : Nat} {key k : String} (hks : ks[i]? = some key)
    (hcc : (cleanedColsOf ks)[i]? = some k) :
    colSamples (min 100 crows.length) crows (cleanedColsOf ks) k = specColSample input key := by
  have hceq := crows_eq hnn hrows
  have hkm : k ∈ cleanedColsOf ks := mem_of_getElem?_eq _ i k hcc
  have hlen : crows.length = input.length := by rw [hceq, List.length_map]
  unfold colSamples specColSample
  rw [hlen]
  have hinner : (fun r : Obj => (cleanedColsOf ks).filterMap (fun c =>
      if c = k then
        match oget r k with
        | some (.cstr s) => some s
        | _ => none
      else none)) = (fun r : Obj => (match oget r k with
        | some (.cstr s) => some s
        | _ => none : Option String).toList) :=
    funext (fun r => filterMap_const_if _ k _ hnd hkm)
  rw [hinner]
  rw [flatMap_toList_eq_filterMap]
  rw [hceq, ← List.map_take, List.filterMap_map]
  have hpt : ((fun r : Obj => (match oget r k with
        | some (.cstr s) => some s
        | _ => none : Option String)) ∘ (fun row => buildObj ((ks.zip (cleanedColsOf ks)).map
      (fun p => (p.2, cellOfClean (cleanValue (jsGetTotal row p.1))))))) =
      (fun row : JVal => cleanValue (jsGetTotal row key)) := by
    funext row
    show (match oget (buildObj ((ks.zip (cleanedColsOf ks)).map
      (fun p => (p.2, cellOfClean (cleanValue (jsGetTotal row p.1)))))) k with
        | some (.cstr s) => some s
        | _ => none : Option String) = cleanValue (jsGetTotal row key)
    rw [buildObj_eq_self _ (by
      rw [map_fst_zip_pairs _ ks (cleanedColsOf ks) (le_of_eq (cleanedColsOf_length ks))]
      exact hnd)]
    rw [oget_zip_pairs (fun p => cellOfClean (cleanValue (jsGetTotal row p.1)))
      ks (cleanedColsOf ks) i key k hnd hks hcc]
    cases cleanValue (jsGetTotal row key) with
    | none => rfl
    | some s => rfl
  rw [hpt]

/-- The implementation's if-chain coincides with the first-qualifying
candidate in the specification's fixed order. -/
theorem inferColType_eq_firstQualifying (dateOk : String → Bool) (sample : List String) :
    inferColType dateOk sample = firstQualifying dateOk sample := by
  unfold inferColType firstQualifying
  by_cases he : sample = []
  · rw [if_pos (by rw [he]; rfl), if_pos he]
  · rw [if_neg (by rw [List.isEmpty_iff]; exact he), if_neg he]
    by_cases hb : sample.all isBoolSample
    · simp [typeOrder, qualAll, hb]
    · by_cases hn : sample.all isNumSample
      · simp [typeOrder, qualAll, hb, hn]
      · by_cases hd : sample.all (isDateSample dateOk)
        · simp [typeOrder, qualAll, hb, hn, hd]
        · simp [typeOrder, qualAll, hb, hn, hd]

/-! ## Lemmas: the keys of every output row -/

/-- A cleaned row object has exactly the sanitized names as its key
list, in order, when those names are duplicate-free. -/
theorem cleanRowObj_map_fst {ks : List String} (hnd : (cleanedColsOf ks).Nodup)
    (row : JVal) :
    (buildObj ((ks.zip (cleanedColsOf ks)).map
      (fun p => (p.2, cellOfClean (cleanValue (jsGetTotal row p.1)))))).map Prod.fst =
      cleanedColsOf ks := by
  rw [buildObj_eq_self _ (by
    rw [map_fst_zip_pairs _ ks (cleanedColsOf ks) (le_of_eq (cleanedColsOf_length ks))]
    exact hnd)]
  exact map_fst_zip_pairs _ ks (cleanedColsOf ks) (le_of_eq (cleanedColsOf_length ks))

theorem coerce_fold_map_fst {ctypes : List (String × ColType)} :
    ∀ (cs : List String) (r : Obj), (∀ c ∈ cs, c ∈ r.map Prod.fst) →
      (cs.foldl
        (fun r c =>
          if oget ctypes c = some ColType.number ∧ ¬(oget r c = some Cell.cnull) then
            oset r c (.cnum (cellNumber (oget r c)))
          else r) r).map Prod.fst = r.map Prod.fst
  | [], _, _ => rfl
  | c :: cs, r, h => by
    rw [List.foldl_cons]
    have hc := h c (List.mem_cons_self c cs)
    by_cases hcond : oget ctypes c = some ColType.number ∧ ¬(oget r c = some Cell.cnull)
    · rw [if_pos hcond]
      have hkeys := map_fst_oset_mem (o := r) (Cell.cnum (cellNumber (oget r c))) hc
      rw [coerce_fold_map_fst cs _ (fun x hx => by
        rw [hkeys]; exact h x (List.mem_cons_of_mem _ hx)), hkeys]
    · rw [if_neg hcond]
      exact coerce_fold_map_fst cs r (fun x hx => h x (List.mem_cons_of_mem _ hx))

theorem coerceRow_map_fst {cc : List String} {ctypes : List (String × ColType)} {r : Obj}
    (h : ∀ c ∈ cc, c ∈ r.map Prod.fst) :
    (coerceRow cc ctypes r).map Prod.fst = r.map Prod.fst :=
  coerce_fold_map_fst cc r h

/-! ## Lemmas: assorted helpers for the claims -/

theorem isNull_false_iff {w : JVal} : w.isNull = false ↔ w ≠ .vnull := by
  cases w <;> simp [JVal.isNull]

/-- The sentinel test of cleanValue on a non-null value, as an equation. -/
theorem cleanValue_some_eq {w : JVal} (h : w.isNull = false) :
    cleanValue (some w) =
      if cleanCore w = "---" ∨ cleanCore w = "-" ∨ cleanCore w = "NIL" ∨
        cleanCore w = "NA" ∨ cleanCore w = "" then none else some (cleanCore w) := by
  cases w <;> first
    | rfl
    | simp [JVal.isNull] at h

theorem tryApprox_sub : ∀ {l rem : List Char}, tryApprox l = some rem → ∀ c ∈ rem, c ∈ l := by
  intro l rem h c hc
  match l, h with
  | c1 :: c2 :: c3 :: c4 :: c5 :: c6 :: c7 :: rest, h =>
    have h2 : (if (lowerAscii c1 == 'a' && lowerAscii c2 == 'p' && lowerAscii c3 == 'p' &&
        lowerAscii c4 == 'r' && lowerAscii c5 == 'o' && lowerAscii c6 == 'x' &&
        !(isLineTerm c7)) = true then some rest else none) = some rem := h
    cases hcond : (lowerAscii c1 == 'a' && lowerAscii c2 == 'p' && lowerAscii c3 == 'p' &&
        lowerAscii c4 == 'r' && lowerAscii c5 == 'o' && lowerAscii c6 == 'x' &&
        !(isLineTerm c7)) with
    | true =>
      rw [hcond, if_pos rfl] at h2
      have hre : rest = rem := Option.some.inj h2
      subst hre
      simp only [List.mem_cons]
      exact Or.inr (Or.inr (Or.inr (Or.inr (Or.inr (Or.inr (Or.inr hc))))))
    | false =>
      rw [hcond, if_neg Bool.false_ne_true] at h2
      exact Option.noConfusion h2

theorem mem_replaceFirstApprox : ∀ (l : List Char), ∀ c ∈ replaceFirstApprox l, c ∈ l
  | [], _, hc => hc
  | a :: rest, c, hc => by
    unfold replaceFirstApprox at hc
    cases htry : tryApprox (a :: rest) with
    | some rem =>
      rw [htry] at hc
      exact tryApprox_sub htry c hc
    | none =>
      rw [htry] at hc
      rcases List.mem_cons.mp hc with h1 | h2
      · exact h1 ▸ List.mem_cons_self a rest
      · exact List.mem_cons_of_mem _ (mem_replaceFirstApprox rest c h2)

theorem isEmpty_false_of_getElem? {α : Type} {l : List α} {i : Nat} {a : α}
    (h : l[i]? = some a) : l.isEmpty = false := by
  cases l with
  | nil => simp at h
  | cons x xs => rfl

theorem convert_cons_inv {dateOk : String → Bool} {first : JVal} {rest : List JVal}
    {t : ParsedData} {ks : List String}
    (h : convertJsonToParsedData dateOk (first :: rest) = some t)
    (hk : jsKeys first = .ok ks) (hne : ks.isEmpty = false) :
    ∃ crows, (first :: rest).mapM (cleanRow ks (cleanedColsOf ks)) = some crows ∧
      t = assembleTable dateOk (cleanedColsOf ks) crows := by
  have h1 : (match jsKeys first with
    | Except.error _ => none
    | Except.ok columns =>
      if columns.isEmpty = true then some (⟨[], [], []⟩ : ParsedData)
      else ((first :: rest).mapM (cleanRow columns (cleanedColsOf columns))).map
        (assembleTable dateOk (cleanedColsOf columns))) = some t := h
  rw [hk] at h1
  have h2 : (if ks.isEmpty = true then some (⟨[], [], []⟩ : ParsedData)
    else ((first :: rest).mapM (cleanRow ks (cleanedColsOf ks))).map
      (assembleTable dateOk (cleanedColsOf ks))) = some t := h1
  rw [hne, if_neg Bool.false_ne_true] at h2
  cases hrows : (first :: rest).mapM (cleanRow ks (cleanedColsOf ks)) with
  | none =>
    rw [hrows] at h2
    exact Option.noConfusion h2
  | some crows =>
    rw [hrows] at h2
    exact ⟨crows, rfl, (Option.some.inj h2).symm⟩

theorem foldl_if_mem_snd {α : Type} :
    ∀ (pairs : List (String × α)) (k : String) (dflt : Option α) (cell : α),
      pairs.foldl (fun acc p => if p.1 = k then some p.2 else acc) dflt = some cell →
      cell ∈ pairs.map Prod.snd ∨ dflt = some cell
  | [], _, _, _, h => Or.inr h
  | p :: ps, k, dflt, cell, h => by
    rw [List.foldl_cons] at h
    rcases foldl_if_mem_snd ps k _ cell h with hm | hd
    · exact Or.inl (by rw [List.map_cons]; exact List.mem_cons_of_mem _ hm)
    · by_cases hp : p.1 = k
      · rw [if_pos hp] at hd
        left
        rw [List.map_cons]
        exact (Option.some.inj hd) ▸ List.mem_cons_self _ _
      · rw [if_neg hp] at hd
        exact Or.inr hd

/-- Any value found in a built object is one of the written values. -/
theorem oget_buildObj_mem_snd {α : Type} {pairs : List (String × α)} {k : String}
    {cell : α} (h : oget (buildObj pairs) k = some cell) : cell ∈ pairs.map Prod.snd := by
  unfold buildObj at h
  rw [oget_foldl_oset, oget_nil] at h
  rcases foldl_if_mem_snd pairs k none cell h with hm | hd
  · exact hm
  · exact Option.noConfusion hd

/-! ## The claims -/

/-- C1: the code does not remove the literal substring (Approx.) with
its parentheses. The regex groups with its parentheses and its dot
matches any character, and no global flag is present, so only the first
occurrence of the six letters Approx plus one following character is
deleted. On the specification's own example the result keeps the
parentheses: cleanValue of the string 1,234 (Approx.) is the string
1234 () and not 1234. -/
theorem c1_cleanValue_keeps_parentheses :
    cleanValue (some (.vstr "1,234 (Approx.)")) = some "1234 ()" ∧
      (some "1234 ()" : Option String) ≠ some "1234" :=
  ⟨by decide, by decide⟩

/-- C6: cleanValue returns null exactly when its input is null or
undefined, or when the cleaned string (coerce to text, trim, delete
every comma, apply the (Approx.) regex deletion, re-trim) equals one of
the sentinels or is empty; and the four quoted examples evaluate as the
specification states. -/
theorem c6_cleanValue_null_characterization :
    (∀ v : Option JVal, cleanValue v = none ↔
      (v = none ∨ v = some .vnull ∨
        ∃ w, v = some w ∧ cleanCore w ∈ (["---", "-", "NIL", "NA", ""] : List String))) ∧
    cleanValue (some (.vstr "237,706")) = some "237706" ∧
    cleanValue (some (.vstr "NIL")) = none ∧
    cleanValue (some (.vstr "  ")) = none ∧
    cleanValue none = none := by
  refine ⟨fun v => ?_, by decide, by decide, by decide, by decide⟩
  cases v with
  | none => simp [cleanValue]
  | some w =>
    by_cases hw : w = .vnull
    · subst hw
      simp [cleanValue]
    · rw [cleanValue_some_eq (isNull_false_iff.mpr hw)]
      by_cases hs : cleanCore w = "---" ∨ cleanCore w = "-" ∨ cleanCore w = "NIL" ∨
        cleanCore w = "NA" ∨ cleanCore w = ""
      · rw [if_pos hs]
        constructor
        · intro _
          exact Or.inr (Or.inr ⟨w, rfl, by simpa using hs⟩)
        · intro _
          rfl
      · rw [if_neg hs]
        constructor
        · intro hcontra
          exact Option.noConfusion hcontra
        · rintro (h1 | h2 | ⟨w2, hw2, hmem⟩)
          · exact Option.noConfusion h1
          · exact absurd (Option.some.inj h2) hw
          · have he : w2 = w := (Option.some.inj hw2).symm
            subst he
            exact absurd (by simpa using hmem) hs

/-- A sanitized name made only of word characters and non-empty passes
through the sanitizer unchanged, whatever index it is given. -/
theorem sanitizeCol_of_word {r : String} (hw : ∀ c ∈ r.toList, isWordChar c = true)
    (hne : r ≠ "") (j : Nat) : sanitizeCol j r = r := by
  show (if sanitizeCore r = "" then
    String.mk ("Column_".toList ++ natDecChars (j + 1)) else sanitizeCore r) = r
  rw [sanitizeCore_eq_self hw, if_neg hne]

/-- C8: the column-name sanitization is idempotent: applied to any name
it has produced, at any index, it returns that name unchanged. Both the
regular sanitized output (word characters only) and the synthetic
Column fallback are fixed points. -/
theorem c8_sanitizeCol_idempotent (s : String) (i j : Nat) :
    sanitizeCol j (sanitizeCol i s) = sanitizeCol i s := by
  by_cases he : sanitizeCore s = ""
  · have hr : sanitizeCol i s = String.mk ("Column_".toList ++ natDecChars (i + 1)) := by
      show (if sanitizeCore s = "" then
        String.mk ("Column_".toList ++ natDecChars (i + 1)) else sanitizeCore s) = _
      rw [if_pos he]
    rw [hr]
    apply sanitizeCol_of_word
    · intro c hc
      have hc2 : c ∈ ("Column_".toList ++ natDecChars (i + 1)) := hc
      rcases List.mem_append.mp hc2 with h1 | h1
      · fin_cases h1 <;> decide
      · exact mem_natDecChars h1
    · exact hr ▸ sanitizeCol_ne_empty i s
  · have hr : sanitizeCol i s = sanitizeCore s := by
      show (if sanitizeCore s = "" then
        String.mk ("Column_".toList ++ natDecChars (i + 1)) else sanitizeCore s) = _
      rw [if_neg he]
    rw [hr]
    exact sanitizeCol_of_word (fun c hc => mem_sanitizeCore hc) he j

/-- C3 counterexample: on an array whose first element is null,
Object.keys throws a TypeError, so the conversion does not return a
table (none models the thrown exception). -/
theorem c3_counterexample_null_first_element :
    convertJsonToParsedData noDates [JVal.vnull] = none := by decide

/-- C3 amended: the conversion returns a table without raising for
every input array none of whose elements is the JSON null; degenerate
cases resolve to the empty table or default typing rather than an
error. -/
theorem c3_total_on_nonnull_records (dateOk : String → Bool) (input : List JVal)
    (h : ∀ v ∈ input, v.isNull = false) :
    (convertJsonToParsedData dateOk input).isSome = true := by
  cases input with
  | nil => rfl
  | cons first rest =>
    rcases jsKeys_ok (h first (List.mem_cons_self first rest)) with ⟨ks, hk⟩
    show ((match jsKeys first with
      | Except.error _ => none
      | Except.ok columns =>
        if columns.isEmpty = true then some (⟨[], [], []⟩ : ParsedData)
        else ((first :: rest).mapM (cleanRow columns (cleanedColsOf columns))).map
          (assembleTable dateOk (cleanedColsOf columns))) : Option ParsedData).isSome = true
    rw [hk]
    show ((if ks.isEmpty = true then some (⟨[], [], []⟩ : ParsedData)
      else ((first :: rest).mapM (cleanRow ks (cleanedColsOf ks))).map
        (assembleTable dateOk (cleanedColsOf ks))) : Option ParsedData).isSome = true
    cases hem : ks.isEmpty with
    | true => rw [if_pos rfl]; rfl
    | false =>
      rw [if_neg Bool.false_ne_true]
      rw [mapM_eq_map _ _ _ (fun x hx => cleanRow_eq (h x hx))]
      rfl

/-- C3 witness: a concrete one-record array of non-null values converts
to a table. -/
theorem c3_total_witness :
    (∀ v ∈ wSmallIn, v.isNull = false) ∧
      (convertJsonToParsedData noDates wSmallIn).isSome = true :=
  ⟨by decide, c3_total_on_nonnull_records noDates wSmallIn (by decide)⟩

/-- C5 counterexample: two distinct original keys sanitize to the same
name, and no de-duplication pass exists, so the output columns list of
the collision input holds the same sanitized name twice. -/
theorem c5_counterexample_duplicate_columns :
    convertJsonToParsedData noDates collideIn =
      some ⟨["a_b", "a_b"], [[("a_b", Cell.cstr "x")]], [("a_b", ColType.string)]⟩ ∧
      ¬ (["a_b", "a_b"] : List String).Nodup :=
  ⟨by decide, by decide⟩

/-- C5 amended: when the sanitized names are pairwise distinct (the
only change the counterexample forces), every output row's key list is
exactly the columns list, columnTypes has exactly the columns as its
keys, and the empty and column-less inputs yield the empty table. -/
theorem c5_structural_invariants (dateOk : String → Bool) (input : List JVal)
    (t : ParsedData) (h : convertJsonToParsedData dateOk input = some t)
    (hnd : t.columns.Nodup) :
    (∀ r ∈ t.rows, r.map Prod.fst = t.columns) ∧
      t.columnTypes.map Prod.fst = t.columns ∧
      convertJsonToParsedData dateOk [] = some ⟨[], [], []⟩ ∧
      (∀ (v : JVal) (rest : List JVal) (ks : List String),
        jsKeys v = .ok ks → ks.isEmpty = true →
        convertJsonToParsedData dateOk (v :: rest) = some ⟨[], [], []⟩) := by
  have hdegen : ∀ (v : JVal) (rest : List JVal) (ks : List String),
      jsKeys v = .ok ks → ks.isEmpty = true →
      convertJsonToParsedData dateOk (v :: rest) = some ⟨[], [], []⟩ := by
    intro v rest ks hkv hem
    show (match jsKeys v with
      | Except.error _ => none
      | Except.ok columns =>
        if columns.isEmpty = true then some (⟨[], [], []⟩ : ParsedData)
        else ((v :: rest).mapM (cleanRow columns (cleanedColsOf columns))).map
          (assembleTable dateOk (cleanedColsOf columns))) = some ⟨[], [], []⟩
    rw [hkv]
    show (if ks.isEmpty = true then some (⟨[], [], []⟩ : ParsedData)
      else ((v :: rest).mapM (cleanRow ks (cleanedColsOf ks))).map
        (assembleTable dateOk (cleanedColsOf ks))) = some ⟨[], [], []⟩
    rw [if_pos hem]
  rcases convert_inv h with hemp | ⟨first, rest, ks, crows, hin, hk, hne, hrows, ht⟩
  · subst hemp
    exact ⟨by intro r hr; simp at hr, rfl, rfl, hdegen⟩
  · subst ht
    have hccnd : (cleanedColsOf ks).Nodup := hnd
    have hnn := rows_nonnull hne (hin ▸ hrows)
    have hceq := crows_eq hnn (hin ▸ hrows)
    refine ⟨?_, typesOf_map_fst crows hccnd, rfl, hdegen⟩
    intro r hr
    have hr2 : r ∈ crows.map (coerceRow (cleanedColsOf ks)
      (typesOf dateOk (cleanedColsOf ks) crows)) := hr
    rcases List.mem_map.mp hr2 with ⟨r0, hr0, hrc⟩
    subst hrc
    rw [hceq] at hr0
    rcases List.mem_map.mp hr0 with ⟨row, _, hrow⟩
    subst hrow
    have hkeys := cleanRowObj_map_fst hccnd row
    show (coerceRow (cleanedColsOf ks) (typesOf dateOk (cleanedColsOf ks) crows) _).map
      Prod.fst = cleanedColsOf ks
    rw [coerceRow_map_fst (fun c hc => by rw [hkeys]; exact hc), hkeys]

/-- C5 witness: on a concrete collision-free input the invariants hold. -/
theorem c5_invariants_witness :
    convertJsonToParsedData noDates wSmallIn =
      some ⟨["A"], [[("A", Cell.cstr "x")]], [("A", ColType.string)]⟩ ∧
    (["A"] : List String).Nodup ∧
    [("A", ColType.string)].map Prod.fst = (["A"] : List String) :=
  ⟨by decide, by decide,
    (c5_structural_invariants noDates wSmallIn
      ⟨["A"], [[("A", Cell.cstr "x")]], [("A", ColType.string)]⟩
      (by decide) (by decide)).2.1⟩

/-- C7 counterexample: when two keys collide after sanitization, the
cell written for the missing key is overwritten by the colliding
present key, so the output row holds a non-null value under the missing
column's sanitized name. -/
theorem c7_counterexample_collision_overwrites :
    convertJsonToParsedData noDates c7CexIn =
      some ⟨["a_b", "a_b"], [[("a_b", Cell.cstr "y")], [("a_b", Cell.cstr "z")]],
        [("a_b", ColType.string)]⟩ ∧
    oget [("a_b", Cell.cstr "z")] (sanitizeCol 0 "a b") = some (Cell.cstr "z") ∧
    (some (Cell.cstr "z") : Option Cell) ≠ some Cell.cnull :=
  ⟨by decide, by decide, by decide⟩

/-- C7 amended: provided the sanitized names are pairwise distinct (the
only change the counterexample forces), a record on which the property
read of some original key of the first record yields undefined gets
null under that column's sanitized name in its output row, and the
final pass leaves that null in place. -/
theorem c7_missing_key_yields_null (dateOk : String → Bool) (first rowv : JVal)
    (rest : List JVal) (t : ParsedData) (ks : List String) (i j : Nat) (key : String)
    (h : convertJsonToParsedData dateOk (first :: rest) = some t)
    (hnd : t.columns.Nodup)
    (hk : jsKeys first = .ok ks)
    (hi : ks[i]? = some key)
    (hj : (first :: rest)[j]? = some rowv)
    (hrv : rowv.isNull = false)
    (hmiss : jsGet rowv key = .ok none) :
    (t.rows[j]?).bind (fun r => oget r (sanitizeCol i key)) = some Cell.cnull := by
  have hne : ks.isEmpty = false := isEmpty_false_of_getElem? hi
  rcases convert_cons_inv h hk hne with ⟨crows, hrows, ht⟩
  subst ht
  have hccnd : (cleanedColsOf ks).Nodup := hnd
  have hcc : (cleanedColsOf ks)[i]? = some (sanitizeCol i key) := by
    rw [cleanedColsOf_getElem, hi]
    rfl
  rcases mapM_some_getElem _ _ _ hrows j rowv hj with ⟨r0, hr0get, hr0⟩
  rw [cleanRow_eq hrv] at hr0
  have hlookup : oget r0 (sanitizeCol i key) = some Cell.cnull := by
    rw [← Option.some.inj hr0]
    rw [buildObj_eq_self _ (by
      rw [map_fst_zip_pairs _ ks (cleanedColsOf ks) (le_of_eq (cleanedColsOf_length ks))]
      exact hccnd)]
    rw [oget_zip_pairs (fun p => cellOfClean (cleanValue (jsGetTotal rowv p.1)))
      ks (cleanedColsOf ks) i key (sanitizeCol i key) hccnd hi hcc]
    show some (cellOfClean (cleanValue (jsGetTotal rowv key))) = some Cell.cnull
    unfold jsGetTotal
    rw [hmiss]
    rfl
  show ((crows.map (coerceRow (cleanedColsOf ks)
      (typesOf dateOk (cleanedColsOf ks) crows)))[j]?).bind
    (fun r => oget r (sanitizeCol i key)) = some Cell.cnull
  rw [List.getElem?_map, hr0get]
  show oget (coerceRow (cleanedColsOf ks) (typesOf dateOk (cleanedColsOf ks) crows) r0)
    (sanitizeCol i key) = some Cell.cnull
  exact coerceRow_oget_cnull r0 hlookup

/-- C7 witness: a concrete record missing the only key of the first
record yields null in its output row, even though the column is typed
number. -/
theorem c7_missing_key_witness :
    convertJsonToParsedData noDates w7In =
      some ⟨["A"], [[("A", Cell.cnum (.fin 5 0))], [("A", Cell.cnull)]],
        [("A", ColType.number)]⟩ ∧
    (([[("A", Cell.cnum (.fin 5 0))], [("A", Cell.cnull)]] : List Obj)[1]?).bind
      (fun r => oget r (sanitizeCol 0 "A")) = some Cell.cnull :=
  ⟨by decide,
    c7_missing_key_yields_null noDates (.vobj [("A", .vstr "5")]) (.vobj []) [.vobj []]
      ⟨["A"], [[("A", Cell.cnum (.fin 5 0))], [("A", Cell.cnull)]],
        [("A", ColType.number)]⟩
      ["A"] 0 1 "A" (by decide) (by decide) rfl rfl rfl rfl rfl⟩

/-- C9: every non-null cell of a column whose recorded type is number is
a numeric value in the output: the final coercion pass converts every
row of the table, not only the sampled ones, so no such cell remains a
string. -/
theorem c9_number_columns_coerced_in_all_rows (dateOk : String → Bool)
    (input : List JVal) (t : ParsedData) (col : String) (r : Obj) (cell : Cell)
    (h : convertJsonToParsedData dateOk input = some t)
    (hty : oget t.columnTypes col = some ColType.number)
    (hr : r ∈ t.rows) (hcell : oget r col = some cell) (hnn : cell ≠ Cell.cnull) :
    ∀ s, cell ≠ Cell.cstr s := by
  rcases convert_inv h with hemp | ⟨first, rest, ks, crows, hin, hk, hne, hrows, ht⟩
  · subst hemp
    simp at hr
  · subst ht
    have hty2 : oget (typesOf dateOk (cleanedColsOf ks) crows) col =
        some ColType.number := hty
    have hmem : col ∈ cleanedColsOf ks := by
      by_contra hmem
      rw [oget_typesOf, if_neg hmem] at hty2
      exact Option.noConfusion hty2
    have hr2 : r ∈ crows.map (coerceRow (cleanedColsOf ks)
      (typesOf dateOk (cleanedColsOf ks) crows)) := hr
    rcases List.mem_map.mp hr2 with ⟨r0, _, hrc⟩
    subst hrc
    rcases coerceRow_cells hty2 hmem r0 with hnull | ⟨n, hnum⟩
    · rw [hcell] at hnull
      exact absurd (Option.some.inj hnull) hnn
    · rw [hcell] at hnum
      have hcn : cell = Cell.cnum n := Option.some.inj hnum
      subst hcn
      intro s hcontra
      exact Cell.noConfusion hcontra

/-- C9 witness: 101 rows whose first hundred cells are numeric type the
column number; the final pass coerces the unsampled 101st row too, and
its non-numeric cleaned value becomes NaN, not a string. -/
theorem c9_nan_beyond_sample_witness :
    convertJsonToParsedData noDates c9In = some c9Out ∧
    oget c9Out.columnTypes "A" = some ColType.number ∧
    [("A", Cell.cnum JSNum.nan)] ∈ c9Out.rows ∧
    oget [("A", Cell.cnum JSNum.nan)] "A" = some (Cell.cnum JSNum.nan) ∧
    Cell.cnum JSNum.nan ≠ Cell.cstr "abc" :=
  ⟨by decide, by decide, by decide, by decide,
    c9_number_columns_coerced_in_all_rows noDates c9In c9Out "A"
      [("A", Cell.cnum JSNum.nan)] (Cell.cnum JSNum.nan) (by decide) (by decide)
      (by decide) (by decide) (by decide) "abc"⟩

/-- C10: every non-null value cleanValue produces is a non-empty string
with no comma and no whitespace at either end; and every non-null cell
of a column the output does not type as number is such a string. -/
theorem c10_clean_cells_are_trimmed_comma_free :
    (∀ (v : Option JVal) (s : String), cleanValue v = some s →
      s ≠ "" ∧ ¬ ',' ∈ s.toList ∧
        (∀ c, s.toList.head? = some c → isJsWs c = false) ∧
        (∀ c, s.toList.getLast? = some c → isJsWs c = false)) ∧
    (∀ (dateOk : String → Bool) (input : List JVal) (t : ParsedData) (col : String)
      (r : Obj) (cell : Cell),
      convertJsonToParsedData dateOk input = some t →
      ¬ oget t.columnTypes col = some ColType.number →
      r ∈ t.rows → oget r col = some cell → cell ≠ Cell.cnull →
      ∃ s, cell = Cell.cstr s ∧ s ≠ "" ∧ ¬ ',' ∈ s.toList ∧
        (∀ c, s.toList.head? = some c → isJsWs c = false) ∧
        (∀ c, s.toList.getLast? = some c → isJsWs c = false)) := by
  have part1 : ∀ (v : Option JVal) (s : String), cleanValue v = some s →
      s ≠ "" ∧ ¬ ',' ∈ s.toList ∧
        (∀ c, s.toList.head? = some c → isJsWs c = false) ∧
        (∀ c, s.toList.getLast? = some c → isJsWs c = false) := by
    intro v s hv
    rcases v with _ | w
    · exact Option.noConfusion hv
    by_cases hw : w = .vnull
    · subst hw
      exact Option.noConfusion hv
    rw [cleanValue_some_eq (isNull_false_iff.mpr hw)] at hv
    by_cases hs : cleanCore w = "---" ∨ cleanCore w = "-" ∨ cleanCore w = "NIL" ∨
      cleanCore w = "NA" ∨ cleanCore w = ""
    · rw [if_pos hs] at hv
      exact Option.noConfusion hv
    · rw [if_neg hs] at hv
      have hse : cleanCore w = s := Option.some.inj hv
      subst hse
      refine ⟨fun he => hs (Or.inr (Or.inr (Or.inr (Or.inr he)))), ?_, ?_, ?_⟩
      · intro hc
        have hc2 : ',' ∈ jsTrim (replaceFirstApprox
            ((jsTrim (jsToString w).toList).filter (· != ','))) := hc
        have hc3 := mem_replaceFirstApprox _ _ (mem_jsTrim hc2)
        have hc4 := List.of_mem_filter hc3
        simp at hc4
      · intro c hhead
        exact jsTrim_head hhead
      · intro c hlast
        exact jsTrim_getLast hlast
  refine ⟨part1, ?_⟩
  intro dateOk input t col r cell h hty hr hcell hnn
  rcases convert_inv h with hemp | ⟨first, rest, ks, crows, hin, hk, hne, hrows, ht⟩
  · subst hemp
    simp at hr
  · subst ht
    have hnn2 := rows_nonnull hne (hin ▸ hrows)
    have hceq := crows_eq hnn2 (hin ▸ hrows)
    have hr2 : r ∈ crows.map (coerceRow (cleanedColsOf ks)
      (typesOf dateOk (cleanedColsOf ks) crows)) := hr
    rcases List.mem_map.mp hr2 with ⟨r0, hr0, hrc⟩
    subst hrc
    have hty2 : ¬ oget (typesOf dateOk (cleanedColsOf ks) crows) col =
        some ColType.number := hty
    rw [coerceRow_oget_ne hty2 r0] at hcell
    rw [hceq] at hr0
    rcases List.mem_map.mp hr0 with ⟨row, _, hrow⟩
    subst hrow
    have hmem := oget_buildObj_mem_snd hcell
    rw [List.map_map] at hmem
    rcases List.mem_map.mp hmem with ⟨q, _, hq⟩
    have hq2 : cellOfClean (cleanValue (jsGetTotal row q.1)) = cell := hq
    cases hcv : cleanValue (jsGetTotal row q.1) with
    | none =>
      rw [hcv] at hq2
      exact absurd hq2.symm hnn
    | some s =>
      rw [hcv] at hq2
      obtain ⟨p1, p2, p3, p4⟩ := part1 (jsGetTotal row q.1) s hcv
      exact ⟨s, hq2.symm, p1, p2, p3, p4⟩

/-- C4 counterexample: when two keys sanitize to the same name, the
recorded type for the colliding name is computed from the collapsed row
objects, not from the per-column specification sample: the first column
of the collision input samples to the numeric string 1, whose first
qualifying candidate is number, yet the table records string. -/
theorem c4_counterexample_collision_pooling :
    convertJsonToParsedData noDates collideIn =
      some ⟨["a_b", "a_b"], [[("a_b", Cell.cstr "x")]], [("a_b", ColType.string)]⟩ ∧
    specColSample collideIn "a b" = ["1"] ∧
    firstQualifying noDates ["1"] = ColType.number ∧
    oget [("a_b", ColType.string)] (sanitizeCol 0 "a b") = some ColType.string ∧
    ColType.string ≠ ColType.number :=
  ⟨by decide, by decide, by decide, by decide, by decide⟩

/-- C4 amended: provided the sanitized names are pairwise distinct (the
only change the counterexample forces), the type recorded for each
column is the first candidate in the order boolean, number, date,
string for which every value of the specification's sample - the
non-null cleaned values of the first min(100, rowCount) records at the
column's original key - qualifies, with string for an empty sample. -/
theorem c4_inferred_type_first_qualifying (dateOk : String → Bool) (first : JVal)
    (rest : List JVal) (t : ParsedData) (ks : List String) (i : Nat) (key : String)
    (h : convertJsonToParsedData dateOk (first :: rest) = some t)
    (hnd : t.columns.Nodup)
    (hk : jsKeys first = .ok ks)
    (hi : ks[i]? = some key) :
    oget t.columnTypes (sanitizeCol i key) =
      some (firstQualifying dateOk (specColSample (first :: rest) key)) := by
  have hne : ks.isEmpty = false := isEmpty_false_of_getElem? hi
  rcases convert_cons_inv h hk hne with ⟨crows, hrows, ht⟩
  subst ht
  have hccnd : (cleanedColsOf ks).Nodup := hnd
  have hnn := rows_nonnull hne hrows
  have hcc : (cleanedColsOf ks)[i]? = some (sanitizeCol i key) := by
    rw [cleanedColsOf_getElem, hi]
    rfl
  have hmem : sanitizeCol i key ∈ cleanedColsOf ks := mem_of_getElem?_eq _ i _ hcc
  show oget (typesOf dateOk (cleanedColsOf ks) crows) (sanitizeCol i key) = _
  rw [oget_typesOf, if_pos hmem]
  rw [colSamples_eq_spec hccnd hnn hrows hi hcc]
  rw [inferColType_eq_firstQualifying]

/-- C4 witness: a two-record boolean column is typed boolean, the first
qualifying candidate for its specification sample. -/
theorem c4_first_qualifying_witness :
    convertJsonToParsedData noDates
      [JVal.vobj [("B", JVal.vstr "true")], JVal.vobj [("B", JVal.vstr "false")]] =
      some ⟨["B"], [[("B", Cell.cstr "true")], [("B", Cell.cstr "false")]],
        [("B", ColType.boolean)]⟩ ∧
    oget [("B", ColType.boolean)] (sanitizeCol 0 "B") =
      some (firstQualifying noDates
        (specColSample [JVal.vobj [("B", JVal.vstr "true")],
          JVal.vobj [("B", JVal.vstr "false")]] "B")) :=
  ⟨by decide,
    c4_inferred_type_first_qualifying noDates (.vobj [("B", .vstr "true")])
      [.vobj [("B", .vstr "false")]]
      ⟨["B"], [[("B", Cell.cstr "true")], [("B", Cell.cstr "false")]],
        [("B", ColType.boolean)]⟩
      ["B"] 0 "B" (by decide) (by decide) rfl rfl⟩

/-- C2 counterexample: on the record with keys hash and Name, the hash
column falls back to Column_1 as claimed, but its single sample, the
string 1, passes the number test, so the column is typed number and its
cell is coerced to the numeric value 1, not kept as the string 1. -/
theorem c2_counterexample_number_not_string :
    convertJsonToParsedData noDates c2In = some c2Out ∧
    oget c2Out.columnTypes "Column_1" = some ColType.number ∧
    ColType.number ≠ ColType.string ∧
    (c2Out.rows[0]?).bind (fun r => oget r "Column_1") = some (Cell.cnum (.fin 1 0)) ∧
    (some (Cell.cnum (.fin 1 0)) : Option Cell) ≠ some (Cell.cstr "1") :=
  ⟨by decide, by decide, by decide, by decide, by decide⟩

/-- C2 amended: for any host date parser that rejects the string Ravi
Kumar, the record with keys hash and Name converts to the table whose
first column is the fallback Column_1, typed number with the numeric
cell 1, and whose Name column is typed string with the cleaned string
cell. -/
theorem c2_hash_key_infers_number (dateOk : String → Bool)
    (hdate : dateOk "Ravi Kumar" = false) :
    convertJsonToParsedData dateOk c2In = some c2Out := by
  have h2 : inferColType dateOk ["Ravi Kumar"] = ColType.string := by
    unfold inferColType
    rw [if_neg (by decide : ¬((["Ravi Kumar"] : List String).isEmpty = true))]
    rw [if_neg (by decide : ¬((["Ravi Kumar"] : List String).all isBoolSample = true))]
    rw [if_neg (by decide : ¬((["Ravi Kumar"] : List String).all isNumSample = true))]
    rw [if_neg ?hd]
    case hd =>
      intro hcon
      rw [List.all_cons, List.all_nil, Bool.and_true] at hcon
      unfold isDateSample at hcon
      rw [hdate] at hcon
      simp at hcon
  have hkq : jsKeys (JVal.vobj [("#", JVal.vstr "1"), ("Name", JVal.vstr "Ravi Kumar")]) =
      Except.ok ["#", "Name"] := rfl
  have hneq : (["#", "Name"] : List String).isEmpty = false := rfl
  have hrq : ((JVal.vobj [("#", JVal.vstr "1"), ("Name", JVal.vstr "Ravi Kumar")]) ::
      ([] : List JVal)).mapM
      (cleanRow ["#", "Name"] (cleanedColsOf ["#", "Name"])) = some c2Cleaned := rfl
  have base := @convert_cons_eq dateOk
    (JVal.vobj [("#", JVal.vstr "1"), ("Name", JVal.vstr "Ravi Kumar")]) []
    ["#", "Name"] hkq hneq c2Cleaned hrq
  have hT : typesOf dateOk (cleanedColsOf ["#", "Name"]) c2Cleaned =
      [("Column_1", ColType.number), ("Name", ColType.string)] := by
    show buildObj [("Column_1", inferColType dateOk ["1"]),
      ("Name", inferColType dateOk ["Ravi Kumar"])] =
      [("Column_1", ColType.number), ("Name", ColType.string)]
    rw [h2]
    rw [show inferColType dateOk ["1"] = ColType.number from rfl]
    decide
  have hfinal : assembleTable dateOk (cleanedColsOf ["#", "Name"]) c2Cleaned = c2Out := by
    show (⟨cleanedColsOf ["#", "Name"],
      c2Cleaned.map (coerceRow (cleanedColsOf ["#", "Name"])
        (typesOf dateOk (cleanedColsOf ["#", "Name"]) c2Cleaned)),
      typesOf dateOk (cleanedColsOf ["#", "Name"]) c2Cleaned⟩ : ParsedData) = c2Out
    rw [hT]
    decide
  exact (show convertJsonToParsedData dateOk c2In =
    some (assembleTable dateOk (cleanedColsOf ["#", "Name"]) c2Cleaned) from base).trans
    (congrArg some hfinal)

/-- C2 witness: with the date parser that accepts nothing, the concrete
conversion holds. -/
theorem c2_hash_key_witness :
    noDates "Ravi Kumar" = false ∧ convertJsonToParsedData noDates c2In = some c2Out :=
  ⟨rfl, c2_hash_key_infers_number noDates rfl⟩

end PdfExtractor
